import Mathlib

/-! Mackerel dynamic inventory: a verification development for `main.go`.

The inventory engine of `main.go` is embedded as pure Lean functions over an
explicit engine state.  Go maps are finite maps with distinct keys
(`AList`); a `range` loop over a map visits the entries in the order in which
the association list holds them.  Strings are Lean strings and a byte of a Go
string is a character of the Lean one (exact on ASCII, which is all the address
parser and the JSON escaper look at).

The library routines the program calls are embedded next to it:

* `net.ParseIP`, `IP.To4`, `IPNet.Contains` of the Go standard library.  The
  parser is written with the loops of `net/parse.go` and `net/ip.go` (`dtoi`,
  `xtoi`, `parseIPv4`, `parseIPv6`) and accepts the texts the current
  `net.ParseIP` accepts: a decimal octet written with a leading zero and a group
  of more than four hexadecimal digits are refused, as is any zone;
* `json.Marshal` of `encoding/json` at the types the program marshals (string
  keyed maps with sorted keys, string slices, the anonymous `_meta` struct),
  with its HTML-safe string escaping.  None of these values makes `json.Marshal`
  fail, so the error branches after it in `List` and `Host` are not taken.

The Host Source (`mackerelClient.FindHosts`) is the only input: its answer is
passed in as `none` (the query failed) or `some hosts`.
-/

/-! ## Package `net`: textual IP addresses -/

namespace net

/-- An IP address is a slice of bytes; the `nil` address is the empty slice. -/
abbrev IP := List Nat

/-- The constant `big` of `net/parse.go`: numbers at or above it are refused. -/
def big : Nat := 0xFFFFFF

/-- True for the bytes '0' to '9'. -/
def isDec (c : Char) : Bool := decide (48 ≤ c.toNat) && decide (c.toNat ≤ 57)

/-- The loop of `dtoi`: `n` is the number read so far, `i` the count of bytes
consumed; the result is `(n, i, ok)` with `ok = false` on overflow. -/
def dtoiLoop : List Char → Nat → Nat → Nat × Nat × Bool
  | [], n, i => (n, i, true)
  | c :: s, n, i =>
    if isDec c then
      let n1 := n * 10 + (c.toNat - 48)
      if n1 ≥ big then (big, i, false) else dtoiLoop s n1 (i + 1)
    else (n, i, true)

/-- Decimal to integer (`dtoi`): number, bytes consumed, success.  Reading no
digit at all is a failure. -/
def dtoi (s : List Char) : Nat × Nat × Bool :=
  match dtoiLoop s 0 0 with
  | (n, i, ok) => if !ok then (n, i, false) else if i = 0 then (0, 0, false) else (n, i, true)

/-- The value of a hexadecimal digit byte, `none` for any other byte. -/
def hexVal (c : Char) : Option Nat :=
  if 48 ≤ c.toNat ∧ c.toNat ≤ 57 then some (c.toNat - 48)
  else if 97 ≤ c.toNat ∧ c.toNat ≤ 102 then some (c.toNat - 97 + 10)
  else if 65 ≤ c.toNat ∧ c.toNat ≤ 70 then some (c.toNat - 65 + 10)
  else none

/-- The loop of `xtoi`. -/
def xtoiLoop : List Char → Nat → Nat → Nat × Nat × Bool
  | [], n, i => (n, i, true)
  | c :: s, n, i =>
    match hexVal c with
    | some d =>
      let n1 := n * 16 + d
      if n1 ≥ big then (0, i, false) else xtoiLoop s n1 (i + 1)
    | none => (n, i, true)

/-- Hexadecimal to integer (`xtoi`): number, bytes consumed, success. -/
def xtoi (s : List Char) : Nat × Nat × Bool :=
  match xtoiLoop s 0 0 with
  | (n, i, ok) => if !ok then (n, i, false) else if i = 0 then (0, i, false) else (n, i, true)

/-- The 16-byte form of the IPv4 address `a.b.c.d` (`net.IPv4`): the prefix
`v4InV6Prefix` followed by the four octets. -/
def IPv4 (a b c d : Nat) : IP := [0, 0, 0, 0, 0, 0, 0, 0, 0, 0, 0xff, 0xff, a, b, c, d]

/-- The loop of `parseIPv4`, run for the octets that are still to be read:
`k` octets remain, `p` holds the octets read so far and `first` says that no
octet has been read yet (the `i > 0` test).  An octet of more than one digit
that begins with '0' is refused.  The result is the four octets. -/
def parseIPv4Loop : Nat → Bool → List Char → List Nat → Option (List Nat)
  | 0, _, s, p => if s.length ≠ 0 then none else some p
  | k + 1, first, s, p =>
    if s.length = 0 then none
    else
      let s1 : Option (List Char) :=
        if first then some s
        else match s with
          | c :: t => if c ≠ '.' then none else some t
          | [] => none
      match s1 with
      | none => none
      | some s1 =>
        match dtoi s1 with
        | (n, c, ok) =>
          if !ok || n > 0xFF then none
          else if c > 1 ∧ s1.head? = some '0' then none
          else parseIPv4Loop k false (s1.drop c) (p ++ [n])

/-- Parse an IPv4 address `d.d.d.d` (`parseIPv4`); `[]` is the `nil` result. -/
def parseIPv4 (s : List Char) : IP :=
  match parseIPv4Loop 4 true s [] with
  | some [a, b, c, d] => IPv4 a b c d
  | _ => []

/-- The length of an IPv6 address in bytes. -/
def IPv6len : Nat := 16

/-- The length of an IPv4 address in bytes. -/
def IPv4len : Nat := 4

/-- The tail of `parseIPv6` after its loop: the whole string must be used; a
short address is completed at the ellipsis with zero bytes, a full one must
have no ellipsis.  `ip` holds the `i = ip.length` bytes written so far. -/
def parseIPv6Finish (s : List Char) (ellipsis : Option Nat) (ip : List Nat) : IP :=
  if s.length ≠ 0 then []
  else if ip.length < IPv6len then
    match ellipsis with
    | none => []
    | some e => ip.take e ++ List.replicate (IPv6len - ip.length) 0 ++ ip.drop e
  else
    match ellipsis with
    | some _ => []
    | none => ip

/-- The loop of `parseIPv6`, "parsing hex numbers followed by colon"; a group
of more than four hexadecimal digits is refused.  `fuel`
bounds the iterations (each one writes two bytes, so eight are enough for the
sixteen bytes the loop condition `i < IPv6len` allows). -/
def parseIPv6Loop : Nat → List Char → Option Nat → List Nat → IP
  | 0, s, ellipsis, ip => parseIPv6Finish s ellipsis ip
  | fuel + 1, s, ellipsis, ip =>
    if ¬ ip.length < IPv6len then parseIPv6Finish s ellipsis ip
    else
      match xtoi s with
      | (n, c, ok) =>
        if !ok || n > 0xFFFF || c > 4 then []
        else if c < s.length ∧ s.get? c = some '.' then
          -- trailing IPv4
          if ellipsis = none ∧ ip.length ≠ IPv6len - IPv4len then []
          else if ip.length + IPv4len > IPv6len then []
          else
            match parseIPv4 s with
            | [] => []
            | ip4 => parseIPv6Finish [] ellipsis (ip ++ ip4.drop 12)
        else
          let ip1 := ip ++ [n / 256 % 256, n % 256]
          let s1 := s.drop c
          if s1.length = 0 then parseIPv6Finish s1 ellipsis ip1
          else
            match s1 with
            | [] => parseIPv6Finish s1 ellipsis ip1
            | c0 :: s2 =>
              if c0 ≠ ':' ∨ s1.length = 1 then []
              else
                match s2 with
                | ':' :: s3 =>
                  if ellipsis ≠ none then []
                  else if s3.length = 0 then parseIPv6Finish s3 (some ip1.length) ip1
                  else parseIPv6Loop fuel s3 (some ip1.length) ip1
                | _ => parseIPv6Loop fuel s2 ellipsis ip1

/-- Parse a literal IPv6 address (`parseIPv6`, without zone). -/
def parseIPv6 (s : List Char) : IP :=
  match s with
  | ':' :: ':' :: s1 =>
    if s1.length = 0 then List.replicate IPv6len 0
    else parseIPv6Loop 8 s1 (some 0) []
  | _ => parseIPv6Loop 8 s none []

/-- The dispatch loop of `net.ParseIP`: the first '.' or ':' met decides which
parser reads the whole string; a string with neither is no address. -/
def parseIPScan (whole : List Char) : List Char → IP
  | [] => []
  | c :: rest =>
    if c = '.' then parseIPv4 whole
    else if c = ':' then parseIPv6 whole
    else parseIPScan whole rest

/-- Go's `net.ParseIP`: the 16-byte address, or `[]` (`nil`) when `s` is not
the text of an IP address. -/
def ParseIP (s : String) : IP := parseIPScan s.toList s.toList

/-- Go's `IP.To4`: the 4-byte form of an IPv4 address (given in 4 bytes or as
an IPv4-mapped 16-byte address), `[]` (`nil`) otherwise. -/
def To4 (ip : IP) : IP :=
  if ip.length = IPv4len then ip
  else if ip.length = IPv6len ∧ (ip.take 10).all (fun b => b == 0) ∧
      ip.get? 10 = some 0xff ∧ ip.get? 11 = some 0xff then ip.drop 12
  else []

/-- An IP network (`net.IPNet`): network number and mask. -/
structure IPNet where
  IP : net.IP
  Mask : List Nat
deriving DecidableEq, Repr

/-- Go's `networkNumberAndMask`: the network number and mask of `n` in
matching lengths, `([], [])` for the `(nil, nil)` result. -/
def networkNumberAndMask (n : IPNet) : net.IP × List Nat :=
  let ip4 := To4 n.IP
  let ip := if ip4 = [] then n.IP else ip4
  if ip4 = [] ∧ ip.length ≠ IPv6len then ([], [])
  else if n.Mask.length = IPv4len then
    if ip.length ≠ IPv4len then ([], []) else (ip, n.Mask)
  else if n.Mask.length = IPv6len then
    if ip.length = IPv4len then (ip, n.Mask.drop 12) else (ip, n.Mask)
  else ([], [])

/-- Go's `IPNet.Contains`: whether the network includes `ip`.  The address is
taken in its 4-byte form when it has one; the lengths must agree and every
masked byte must be equal. -/
def IPNet.Contains (n : IPNet) (ip : net.IP) : Bool :=
  match networkNumberAndMask n with
  | (nn, m) =>
    let x := To4 ip
    let ip1 := if x ≠ [] then x else ip
    if ip1.length ≠ nn.length then false
    else (List.zip (List.zip nn m) ip1).all (fun t => t.1.1 &&& t.1.2 == t.2 &&& t.1.2)

end net

/-! ## Go maps and the records of the Host Source -/

/-- A Go `map[string]V`: finitely many entries with distinct keys. -/
abbrev GoMap (V : Type) := AList (fun _ : String => V)

namespace mackerel

/-- The part of `mackerel.Interface` the program reads. -/
structure Interface where
  IPAddress : String
deriving DecidableEq, Repr

/-- The part of `mackerel.Host` the program reads: `Roles` is the map from
service name to role names, `Type_` is the field `Type`. -/
structure Host where
  Name : String
  Type_ : String
  Status : String
  Roles : GoMap (List String)
  Interfaces : List Interface

/-- The answer of `Client.FindHosts`: `none` when it returns an error. -/
abbrev FindHostsResult := Option (List Host)

end mackerel

/-! ## Package `encoding/json` at the types the program marshals -/

namespace json

/-- The table `hex` of `encoding/json`. -/
def hex (n : Nat) : Char := ("0123456789abcdef".toList).getD n '0'

/-- The table `htmlSafeSet`: the ASCII bytes written without escaping: all from
the space on, except the double quote, `&`, `<`, `>` and the backslash. -/
def htmlSafeSet (b : Nat) : Bool :=
  decide (0x20 ≤ b) && decide (b < 0x80) &&
    !(b == 0x22 || b == 0x26 || b == 0x3c || b == 0x3e || b == 0x5c)

/-- What `encodeState.string` writes for one character of the string. -/
def escapeChar (c : Char) : List Char :=
  if c.toNat < 0x80 then
    if htmlSafeSet c.toNat then [c]
    else if c.toNat = 0x5c ∨ c.toNat = 0x22 then ['\\', c]
    else if c.toNat = 0x08 then ['\\', 'b']
    else if c.toNat = 0x0c then ['\\', 'f']
    else if c.toNat = 0x0a then ['\\', 'n']
    else if c.toNat = 0x0d then ['\\', 'r']
    else if c.toNat = 0x09 then ['\\', 't']
    else ['\\', 'u', '0', '0', hex (c.toNat / 16), hex (c.toNat % 16)]
  else if c.toNat = 0x2028 ∨ c.toNat = 0x2029 then
    ['\\', 'u', '2', '0', '2', hex (c.toNat % 16)]
  else [c]

/-- The body of a JSON string: every character escaped in turn. -/
def escape : List Char → List Char
  | [] => []
  | c :: s => escapeChar c ++ escape s

/-- A Go string as a JSON string (`encodeState.string` with HTML escaping). -/
def encodeString (s : String) : String := "\"" ++ String.mk (escape s.toList) ++ "\""

/-- A `[]string`: `null` for the nil slice, else the array of its strings. -/
def encodeStrings (v : List String) : String :=
  if v = [] then "null" else "[" ++ ",".intercalate (v.map encodeString) ++ "]"

/-- Go's `<` on strings, byte by byte. -/
def less : List Char → List Char → Bool
  | _, [] => false
  | [], _ :: _ => true
  | a :: s, b :: t =>
    if a.toNat < b.toNat then true else if b.toNat < a.toNat then false else less s t

/-- The entries of a map in the order `json.Marshal` writes them: sorted by key
(the keys of a map are distinct, so the order is fixed by `less`). -/
def sortedEntries {V : Type} (m : GoMap V) : List (String × V) :=
  (m.entries.map (fun e => (e.1, e.2))).insertionSort
    (fun a b => less b.1.toList a.1.toList = false)

/-- A JSON object from its members, already encoded. -/
def encodeObject (members : List (String × String)) : String :=
  "\x7b" ++ ",".intercalate (members.map (fun kv => encodeString kv.1 ++ ":" ++ kv.2)) ++ "\x7d"

/-- A `map[string]V` as a JSON object, keys sorted, values encoded by `enc`. -/
def encodeMap {V : Type} (enc : V → String) (m : GoMap V) : String :=
  encodeObject ((sortedEntries m).map (fun kv => (kv.1, enc kv.2)))

end json

/-! ## `main.go` -/

/-- The table `privateIPNets`, in the order of the literal. -/
def privateIPNets : List (String × net.IPNet) :=
  [ ("10.0.0.0/8", { IP := [0xa, 0x0, 0x0, 0x0], Mask := [0xff, 0x0, 0x0, 0x0] }),
    ("172.16.0.0/12", { IP := [0xac, 0x10, 0x0, 0x0], Mask := [0xff, 0xf0, 0x0, 0x0] }),
    ("192.168.0.0/16", { IP := [0xc0, 0xa8, 0x0, 0x0], Mask := [0xff, 0xff, 0x0, 0x0] }) ]

/-- The function `isPrivateIP`: some network of the table contains the parsed
address. -/
def isPrivateIP (ip : String) : Bool :=
  privateIPNets.any (fun e => e.2.Contains (net.ParseIP ip))

/-- The per-host variable map, a `map[string]interface{}` whose values are the
strings the program stores in it. -/
abbrev Vars := GoMap String

/-- The engine state `Inventory` (its `mackerelClient` is the Host Source, whose
answers are passed to the queries). -/
structure Inventory where
  addedHosts : GoMap Bool
  Groups : GoMap (List String)
  Meta : GoMap Vars

/-- The constructor `NewInventory`: three empty maps. -/
def NewInventory : Inventory :=
  { addedHosts := ∅, Groups := ∅, Meta := ∅ }

/-- The index expression `m[k]` on a map of slices: `nil` for an absent key. -/
def groupOf (groups : GoMap (List String)) (k : String) : List String :=
  (groups.lookup k).getD []

/-- The statement `i.Groups[k] = append(i.Groups[k], name)`. -/
def appendHost (groups : GoMap (List String)) (k name : String) : GoMap (List String) :=
  groups.insert k (groupOf groups k ++ [name])

/-- The guarded statement `if k != "" { i.Groups[k] = append(i.Groups[k], name) }`. -/
def groupBy (groups : GoMap (List String)) (k name : String) : GoMap (List String) :=
  if k ≠ "" then appendHost groups k name else groups

/-- The inner loop "Grouping by role" over the roles of one service. -/
def groupByRoles (groups : GoMap (List String)) (roles : List String) (name : String) :
    GoMap (List String) :=
  roles.foldl (fun g role => groupBy g role name) groups

/-- The loop over `host.Roles`: grouping by service, then by each of its roles. -/
def groupByServices (groups : GoMap (List String))
    (roles : List (Sigma (fun _ : String => List String))) (name : String) :
    GoMap (List String) :=
  roles.foldl (fun g e => groupByRoles (groupBy g e.1 name) e.2 name) groups

/-- The loop over `host.Interfaces`: each private address overwrites the entry
of the host in `Meta`. -/
def setAnsibleHost (vars : GoMap Vars) (ifs : List mackerel.Interface) (name : String) :
    GoMap Vars :=
  ifs.foldl (fun m x =>
    if isPrivateIP x.IPAddress then m.insert name (AList.singleton "ansible_host" x.IPAddress)
    else m) vars

/-- The index expression `i.addedHosts[name]`: `false` for an absent key. -/
def Inventory.seen (i : Inventory) (name : String) : Bool :=
  (i.addedHosts.lookup name).getD false

/-- The method `addHost`. -/
def Inventory.addHost (i : Inventory) (host : mackerel.Host) : Inventory :=
  if i.seen host.Name then i
  else
    { addedHosts := i.addedHosts.insert host.Name true
      Groups :=
        groupBy (groupBy (groupByServices i.Groups host.Roles.entries host.Name)
          host.Type_ host.Name) host.Status host.Name
      Meta := setAnsibleHost i.Meta host.Interfaces host.Name }

/-- The loop `for _, host := range hosts { i.addHost(host) }`. -/
def Inventory.addHosts (i : Inventory) (hosts : List mackerel.Host) : Inventory :=
  hosts.foldl Inventory.addHost i

/-- A value of the map `data` built by `MarshalJSON`: the anonymous struct with
the field `hostvars`, or a slice of host names. -/
inductive DataValue where
  | hostVars (HostVars : GoMap Vars)
  | names (v : List String)

/-- The map `data` of `MarshalJSON`: `_meta` is set first, then every group is
copied in. -/
def Inventory.data (i : Inventory) : GoMap DataValue :=
  i.Groups.entries.foldl (fun d e => d.insert e.1 (DataValue.names e.2))
    ((∅ : GoMap DataValue).insert "_meta" (DataValue.hostVars i.Meta))

/-- The JSON text of a `Vars` map. -/
def encodeVars (vars : Vars) : String := json.encodeMap json.encodeString vars

/-- The JSON text of a value of `data`. -/
def DataValue.encode : DataValue → String
  | DataValue.hostVars m => json.encodeObject [("hostvars", json.encodeMap encodeVars m)]
  | DataValue.names v => json.encodeStrings v

/-- The method `MarshalJSON`: `json.Marshal(data)`. -/
def Inventory.MarshalJSON (i : Inventory) : String :=
  json.encodeMap DataValue.encode i.data

/-- The method `List`: the new state and the document returned. -/
def Inventory.List (i : Inventory) (found : mackerel.FindHostsResult) : Inventory × String :=
  match found with
  | none => (i, "\x7b\"_meta\":\x7b\"hostvars\":\x7b\x7d\x7d\x7d")
  | some hosts =>
    let j := i.addHosts hosts
    (j, j.MarshalJSON)

/-- The method `Host`: the new state and the document returned.  The loop over
`i.Meta` returns at the entry whose key is `name`. -/
def Inventory.Host (i : Inventory) (found : mackerel.FindHostsResult) (name : String) :
    Inventory × String :=
  match found with
  | none => (i, "\x7b\x7d")
  | some hosts =>
    let j := i.addHosts hosts
    match j.Meta.entries.find? (fun e => e.1 == name) with
    | some e => (j, encodeVars e.2)
    | none => (j, "\x7b\x7d")

/-! ## `main.go`, assignment by assignment

The methods once more, as the sequence of map assignments they execute on the
memory they can reach through the receiver `i` and the local `data`.  An
assignment may write to the receiver or to `data`; which of the two a method
writes to is read off from what it executes, not from its type. -/

/-- The memory a method of `*Inventory` works on: the receiver `i` and the
local map `data` of `MarshalJSON`. -/
structure Memory where
  receiver : Inventory
  data : GoMap DataValue

/-- The assignment statements of `main.go` that write to a map. -/
inductive Assign where
  /-- The statement `i.Groups[k] = append(i.Groups[k], name)` (lines 108, 114, 120, 125). -/
  | group (k name : String)
  /-- The statement `i.Meta[name] = map[string]interface{}{"ansible_host": address}` (line 130). -/
  | vars (name address : String)
  /-- The statement `i.addedHosts[name] = true` (line 136). -/
  | added (name : String)
  /-- The statement `data["_meta"] = struct{...}{HostVars: i.Meta}` (line 88). -/
  | dataMeta
  /-- The statement `data[k] = v` (line 94). -/
  | dataGroup (k : String) (v : List String)

/-- The effect of one assignment on the memory. -/
def Assign.exec : Assign → Memory → Memory
  | Assign.group k name, m =>
    { m with receiver := { m.receiver with Groups := appendHost m.receiver.Groups k name } }
  | Assign.vars name address, m =>
    { m with receiver := { m.receiver with
        Meta := m.receiver.Meta.insert name (AList.singleton "ansible_host" address) } }
  | Assign.added name, m =>
    { m with receiver := { m.receiver with
        addedHosts := m.receiver.addedHosts.insert name true } }
  | Assign.dataMeta, m =>
    { m with data := m.data.insert "_meta" (DataValue.hostVars m.receiver.Meta) }
  | Assign.dataGroup k v, m =>
    { m with data := m.data.insert k (DataValue.names v) }

/-- The assignments executed one after the other. -/
def Memory.run (m : Memory) (assigns : List Assign) : Memory :=
  assigns.foldl (fun mem a => a.exec mem) m

/-- What the guarded append `if k != "" { ... }` executes. -/
def groupByAssigns (k name : String) : List Assign :=
  if k ≠ "" then [Assign.group k name] else []

/-- What the loop over `host.Roles` executes: per service the append for the
service, then the appends for its roles. -/
def groupByServicesAssigns (roles : List (Sigma (fun _ : String => List String)))
    (name : String) : List Assign :=
  roles.flatMap (fun e =>
    groupByAssigns e.1 name ++ e.2.flatMap (fun role => groupByAssigns role name))

/-- What the loop over `host.Interfaces` executes: one assignment to `i.Meta`
per private address. -/
def setAnsibleHostAssigns (ifs : List mackerel.Interface) (name : String) : List Assign :=
  ifs.flatMap (fun x => if isPrivateIP x.IPAddress then [Assign.vars name x.IPAddress] else [])

/-- What the body of `addHost` executes after the test of `i.addedHosts`. -/
def addHostAssigns (host : mackerel.Host) : List Assign :=
  groupByServicesAssigns host.Roles.entries host.Name ++ groupByAssigns host.Type_ host.Name ++
    groupByAssigns host.Status host.Name ++ setAnsibleHostAssigns host.Interfaces host.Name ++
    [Assign.added host.Name]

/-- The method `addHost` on the memory. -/
def Memory.addHost (m : Memory) (host : mackerel.Host) : Memory :=
  if m.receiver.seen host.Name then m else m.run (addHostAssigns host)

/-- What `MarshalJSON` executes on `data`: the assignment of `_meta`, then one
assignment per entry of `i.Groups`. -/
def MarshalJSONAssigns (i : Inventory) : List Assign :=
  Assign.dataMeta :: i.Groups.entries.map (fun e => Assign.dataGroup e.1 e.2)

/-- The method `MarshalJSON` on the memory: `data` is made empty, the
assignments are executed, and `data` is marshalled. -/
def Memory.MarshalJSON (m : Memory) : Memory × String :=
  let m1 := Memory.run { m with data := ∅ } (MarshalJSONAssigns m.receiver)
  (m1, json.encodeMap DataValue.encode m1.data)

/-- The method `List` on the memory. -/
def Memory.List (m : Memory) (found : mackerel.FindHostsResult) : Memory × String :=
  match found with
  | none => (m, "\x7b\"_meta\":\x7b\"hostvars\":\x7b\x7d\x7d\x7d")
  | some hosts => (hosts.foldl Memory.addHost m).MarshalJSON

/-- The method `Host` on the memory: the loop over `i.Meta` executes no
assignment. -/
def Memory.Host (m : Memory) (found : mackerel.FindHostsResult) (name : String) :
    Memory × String :=
  match found with
  | none => (m, "\x7b\x7d")
  | some hosts =>
    let m1 := hosts.foldl Memory.addHost m
    match m1.receiver.Meta.entries.find? (fun e => e.1 == name) with
    | some e => (m1, encodeVars e.2)
    | none => (m1, "\x7b\x7d")

/-! ## Specification-side notions -/

/-- Whether the assignment writes to the local map `data` (and so not to the
receiver). -/
def Assign.toData : Assign → Bool
  | Assign.dataMeta => true
  | Assign.dataGroup _ _ => true
  | _ => false


/-- The states the engine can be in: those built from `NewInventory` by calls of
`addHost`. -/
inductive Reachable : Inventory → Prop
  | init : Reachable NewInventory
  | step (i : Inventory) (host : mackerel.Host) : Reachable i → Reachable (i.addHost host)

/-- The address of the last interface, in interface order, that passes
`isPrivateIP`; `none` when no interface does. -/
def lastPrivate (ifs : List mackerel.Interface) : Option String :=
  (ifs.reverse.find? (fun x => isPrivateIP x.IPAddress)).map (fun x => x.IPAddress)

/-- The variable map `{"ansible_host": a}`. -/
def ansibleHost (a : String) : Vars := AList.singleton "ansible_host" a

/-- How many times `addHost` is to append the host to group `g`: once if `g` is
a service of the host, once for every role entry equal to `g` (over all
services), once if the platform type is `g`, once if the status is `g`. -/
def memberships (r : mackerel.Host) (g : String) : Nat :=
  (if g ∈ r.Roles.keys then 1 else 0) + (r.Roles.entries.map (fun e => e.2.count g)).sum +
    (if r.Type_ = g then 1 else 0) + (if r.Status = g then 1 else 0)

/-- The dotted-quad text `a.b.c.d`, each octet in decimal. -/
def dottedQuad (a b c d : Nat) : String :=
  toString a ++ "." ++ toString b ++ "." ++ toString c ++ "." ++ toString d

/-- A string that is empty or begins with a dot: it holds no further digit. -/
def dotOrEnd (rest : List Char) : Prop := rest = [] ∨ ∃ t, rest = '.' :: t

/-- The first of the returned records that bears the name `n`. -/
def firstNamed (hosts : List mackerel.Host) (n : String) : Option mackerel.Host :=
  hosts.find? (fun h => h.Name == n)

/-- The bytes an IP address text is made of: hexadecimal digits, '.' and ':'. -/
def ipChar (c : Char) : Bool := (net.hexVal c).isSome || c == '.' || c == ':'

/-- The record with the unparseable interfaces removed. -/
def dropUnparseable (r : mackerel.Host) : mackerel.Host :=
  { r with Interfaces := r.Interfaces.filter (fun x => decide (net.ParseIP x.IPAddress ≠ [])) }

/-- The entry of a group after `c` appends of the name `n` to it: the old entry
when nothing is appended, else the old list (empty for an absent key) followed
by `c` copies of `n`. -/
def appendTimes (old : Option (List String)) (c : Nat) (n : String) : Option (List String) :=
  if c = 0 then old else some (old.getD [] ++ List.replicate c n)

/-- How many times `addHost` appends an unseen host to the group `g`: never to
the empty name, else `memberships r g` times. -/
def appends (r : mackerel.Host) (g : String) : Nat :=
  if g = "" then 0 else memberships r g

/-! ## Sample records -/

/-- A host of service "web" with role "frontend" whose platform type is also
"web", with a private, a public and a second private interface. -/
def hostWeb : mackerel.Host :=
  { Name := "h1", Type_ := "web", Status := "",
    Roles := AList.singleton "web" ["frontend"],
    Interfaces := [⟨"192.168.1.5"⟩, ⟨"8.8.8.8"⟩, ⟨"10.0.0.9"⟩] }

/-- A second record under the name of `hostWeb`, with other fields. -/
def hostWebAgain : mackerel.Host :=
  { Name := "h1", Type_ := "db", Status := "standby",
    Roles := AList.singleton "batch" ["worker"],
    Interfaces := [⟨"172.16.0.1"⟩] }

/-- A record all of whose classification fields are empty. -/
def hostBlank : mackerel.Host :=
  { Name := "h2", Type_ := "", Status := "",
    Roles := AList.singleton "" ["", ""],
    Interfaces := [⟨"10.1.2.3"⟩] }

/-- A record with an unparseable address between two private ones. -/
def hostBadAddress : mackerel.Host :=
  { Name := "h3", Type_ := "", Status := "working",
    Roles := ∅,
    Interfaces := [⟨"10.0.0.1"⟩, ⟨"not-an-ip"⟩, ⟨""⟩, ⟨"192.168.0.7"⟩] }

/-- A record whose status is the reserved word `_meta`. -/
def hostMetaStatus : mackerel.Host :=
  { Name := "h4", Type_ := "", Status := "_meta",
    Roles := ∅,
    Interfaces := [⟨"10.0.0.1"⟩] }

/-- A record with a public address only. -/
def hostPublic : mackerel.Host :=
  { Name := "h5", Type_ := "", Status := "working",
    Roles := ∅,
    Interfaces := [⟨"8.8.8.8"⟩] }

/-- The names of the records, in the order in which they are classified. -/
def namesOf (hosts : List mackerel.Host) : List String := hosts.map (fun h => h.Name)

/-- A second host of the group "web", whose status is "web". -/
def hostWebToo : mackerel.Host :=
  { Name := "h6", Type_ := "", Status := "web",
    Roles := ∅,
    Interfaces := [] }

/-- A record with empty classification fields and a public address only. -/
def hostNothing : mackerel.Host :=
  { Name := "h7", Type_ := "", Status := "",
    Roles := AList.singleton "" [""],
    Interfaces := [⟨"8.8.4.4"⟩, ⟨"not-an-ip"⟩] }

/-- A record of two services, "web" visited before "db". -/
def hostTwoServices : mackerel.Host :=
  { Name := "h8", Type_ := "", Status := "working",
    Roles := (AList.singleton "db" ["primary"]).insert "web" ["frontend"],
    Interfaces := [⟨"10.0.0.8"⟩] }

/-- The record `hostTwoServices` with "db" visited before "web". -/
def hostTwoServicesSwapped : mackerel.Host :=
  { hostTwoServices with
    Roles := (AList.singleton "web" ["frontend"]).insert "db" ["primary"] }

/-- The memory after `hostWeb` has been classified, with an empty `data`. -/
def memoryAfterWeb : Memory :=
  { receiver := NewInventory.addHost hostWeb, data := ∅ }

/-! ## Lemmas on the engine -/

theorem addHost_of_seen (i : Inventory) (r : mackerel.Host) (h : i.seen r.Name = true) :
    i.addHost r = i := by
  simp [Inventory.addHost, h]

theorem addHost_of_not_seen (i : Inventory) (r : mackerel.Host) (h : i.seen r.Name = false) :
    i.addHost r =
      { addedHosts := i.addedHosts.insert r.Name true
        Groups :=
          groupBy (groupBy (groupByServices i.Groups r.Roles.entries r.Name)
            r.Type_ r.Name) r.Status r.Name
        Meta := setAnsibleHost i.Meta r.Interfaces r.Name } := by
  simp [Inventory.addHost, h]

theorem groupOf_appendHost (G : GoMap (List String)) (k n g : String) :
    groupOf (appendHost G k n) g = if g = k then groupOf G g ++ [n] else groupOf G g := by
  unfold appendHost
  by_cases h : g = k
  · subst h
    simp [groupOf, AList.lookup_insert]
  · simp [groupOf, AList.lookup_insert_ne h, h]

theorem groupOf_groupBy (G : GoMap (List String)) (k n g : String) (hg : g ≠ "") :
    groupOf (groupBy G k n) g = groupOf G g ++ List.replicate (if k = g then 1 else 0) n := by
  unfold groupBy
  by_cases hk : k = g
  · subst hk
    simp [hg, groupOf_appendHost]
  · have hk' : g ≠ k := fun h => hk h.symm
    by_cases h0 : k = ""
    · simp [h0, hk]
      intro h; exact absurd h.symm hg
    · simp [h0, hk, hk', groupOf_appendHost]

theorem groupOf_groupByRoles (roles : List String) (G : GoMap (List String)) (n g : String)
    (hg : g ≠ "") :
    groupOf (groupByRoles G roles n) g = groupOf G g ++ List.replicate (roles.count g) n := by
  induction roles generalizing G with
  | nil => simp [groupByRoles]
  | cons role rest ih =>
    have hstep : groupByRoles G (role :: rest) n = groupByRoles (groupBy G role n) rest n := rfl
    rw [hstep, ih, groupOf_groupBy _ _ _ _ hg, List.count_cons]
    by_cases h : role = g
    · simp [h, List.replicate_add, List.append_assoc]
      rw [← List.replicate_succ, ← List.replicate_succ']
    · simp [h]


theorem groupOf_groupByServices (l : List (Sigma (fun _ : String => List String)))
    (G : GoMap (List String)) (n g : String) (hg : g ≠ "") :
    groupOf (groupByServices G l n) g =
      groupOf G g ++ List.replicate
        ((l.map (fun e => e.1)).count g + (l.map (fun e => e.2.count g)).sum) n := by
  induction l generalizing G with
  | nil => simp [groupByServices]
  | cons e rest ih =>
    have hstep : groupByServices G (e :: rest) n =
        groupByServices (groupByRoles (groupBy G e.1 n) e.2 n) rest n := rfl
    rw [hstep, ih, groupOf_groupByRoles _ _ _ _ hg, groupOf_groupBy _ _ _ _ hg]
    simp only [List.append_assoc, ← List.replicate_add, List.map_cons, List.sum_cons,
      List.count_cons]
    congr 2
    by_cases h : e.1 = g
    · simp [h]; omega
    · simp [h]; omega

theorem count_keys (m : GoMap (List String)) (g : String) :
    (m.entries.map (fun e => e.1)).count g = if g ∈ m.keys then 1 else 0 := by
  have h : m.entries.map (fun e => e.1) = m.keys := rfl
  rw [h]
  exact List.count_eq_of_nodup m.keys_nodup

theorem groupOf_addHost (i : Inventory) (r : mackerel.Host) (g : String)
    (hseen : i.seen r.Name = false) (hg : g ≠ "") :
    groupOf (i.addHost r).Groups g =
      groupOf i.Groups g ++ List.replicate (memberships r g) r.Name := by
  rw [addHost_of_not_seen i r hseen]
  show groupOf (groupBy (groupBy (groupByServices i.Groups r.Roles.entries r.Name)
    r.Type_ r.Name) r.Status r.Name) g = _
  rw [groupOf_groupBy _ _ _ _ hg, groupOf_groupBy _ _ _ _ hg,
    groupOf_groupByServices _ _ _ _ hg, count_keys]
  simp only [List.append_assoc, ← List.replicate_add, memberships]

theorem groupBy_empty (G : GoMap (List String)) (n : String) : groupBy G "" n = G := by
  simp [groupBy]

theorem groupByRoles_empty (roles : List String) (G : GoMap (List String)) (n : String)
    (h : ∀ role ∈ roles, role = "") : groupByRoles G roles n = G := by
  induction roles with
  | nil => rfl
  | cons role rest ih =>
    have hstep : groupByRoles G (role :: rest) n = groupByRoles (groupBy G role n) rest n := rfl
    rw [hstep, h role (List.mem_cons_self _ _), groupBy_empty]
    exact ih (fun x hx => h x (List.mem_cons_of_mem _ hx))

theorem groupByServices_empty (l : List (Sigma (fun _ : String => List String)))
    (G : GoMap (List String)) (n : String)
    (h : ∀ e ∈ l, e.1 = "" ∧ ∀ role ∈ e.2, role = "") : groupByServices G l n = G := by
  induction l with
  | nil => rfl
  | cons e rest ih =>
    have hstep : groupByServices G (e :: rest) n =
        groupByServices (groupByRoles (groupBy G e.1 n) e.2 n) rest n := rfl
    have he := h e (List.mem_cons_self _ _)
    rw [hstep, he.1, groupBy_empty, groupByRoles_empty _ _ _ he.2]
    exact ih (fun x hx => h x (List.mem_cons_of_mem _ hx))


theorem lastPrivate_nil : lastPrivate [] = none := rfl

theorem lastPrivate_cons (x : mackerel.Interface) (xs : List mackerel.Interface) :
    lastPrivate (x :: xs) =
      match lastPrivate xs with
      | some a => some a
      | none => if isPrivateIP x.IPAddress then some x.IPAddress else none := by
  unfold lastPrivate
  rw [List.reverse_cons, List.find?_append]
  cases h : List.find? (fun x => isPrivateIP x.IPAddress) xs.reverse with
  | some y => simp
  | none =>
    by_cases hx : isPrivateIP x.IPAddress = true
    · simp [List.find?, hx]
    · simp [List.find?, hx]

theorem lookup_setAnsibleHost (ifs : List mackerel.Interface) (m : GoMap Vars) (n : String) :
    (setAnsibleHost m ifs n).lookup n =
      match lastPrivate ifs with
      | some a => some (ansibleHost a)
      | none => m.lookup n := by
  induction ifs generalizing m with
  | nil => rfl
  | cons x xs ih =>
    have hstep : setAnsibleHost m (x :: xs) n =
        setAnsibleHost (if isPrivateIP x.IPAddress then
          m.insert n (AList.singleton "ansible_host" x.IPAddress) else m) xs n := rfl
    rw [hstep, ih, lastPrivate_cons]
    cases lastPrivate xs with
    | some a => rfl
    | none =>
      by_cases hx : isPrivateIP x.IPAddress = true
      · simp [hx, AList.lookup_insert, ansibleHost]
      · simp [hx]

theorem lookup_setAnsibleHost_ne (ifs : List mackerel.Interface) (m : GoMap Vars)
    (n k : String) (h : k ≠ n) : (setAnsibleHost m ifs n).lookup k = m.lookup k := by
  induction ifs generalizing m with
  | nil => rfl
  | cons x xs ih =>
    have hstep : setAnsibleHost m (x :: xs) n =
        setAnsibleHost (if isPrivateIP x.IPAddress then
          m.insert n (AList.singleton "ansible_host" x.IPAddress) else m) xs n := rfl
    rw [hstep, ih]
    by_cases hx : isPrivateIP x.IPAddress = true
    · simp [hx, AList.lookup_insert_ne h]
    · simp [hx]

theorem seen_addHost_self (i : Inventory) (r : mackerel.Host) :
    (i.addHost r).seen r.Name = true := by
  by_cases h : i.seen r.Name = true
  · rw [addHost_of_seen i r h]; exact h
  · rw [addHost_of_not_seen i r (by simpa using h)]
    simp [Inventory.seen, AList.lookup_insert]

theorem seen_addHost_ne (i : Inventory) (r : mackerel.Host) (n : String) (hn : n ≠ r.Name) :
    (i.addHost r).seen n = i.seen n := by
  by_cases h : i.seen r.Name = true
  · rw [addHost_of_seen i r h]
  · rw [addHost_of_not_seen i r (by simpa using h)]
    simp [Inventory.seen, AList.lookup_insert_ne hn]

theorem seen_addHost_mono (i : Inventory) (r : mackerel.Host) (n : String)
    (h : i.seen n = true) : (i.addHost r).seen n = true := by
  by_cases hn : n = r.Name
  · subst hn; exact seen_addHost_self i r
  · rw [seen_addHost_ne i r n hn]; exact h

theorem lookup_Meta_addHost_self (i : Inventory) (r : mackerel.Host)
    (h : i.seen r.Name = false) :
    (i.addHost r).Meta.lookup r.Name =
      match lastPrivate r.Interfaces with
      | some a => some (ansibleHost a)
      | none => i.Meta.lookup r.Name := by
  rw [addHost_of_not_seen i r h]
  exact lookup_setAnsibleHost _ _ _

theorem lookup_Meta_addHost_ne (i : Inventory) (r : mackerel.Host) (n : String)
    (hn : n ≠ r.Name) : (i.addHost r).Meta.lookup n = i.Meta.lookup n := by
  by_cases h : i.seen r.Name = true
  · rw [addHost_of_seen i r h]
  · rw [addHost_of_not_seen i r (by simpa using h)]
    exact lookup_setAnsibleHost_ne _ _ _ _ hn

/-- In a reachable state only seen hosts have variables. -/
theorem Reachable.meta_seen {i : Inventory} (hr : Reachable i) (n : String)
    (h : i.seen n = false) : i.Meta.lookup n = none := by
  induction hr with
  | init => rfl
  | step j r _ ih =>
    by_cases hn : n = r.Name
    · subst hn
      rw [seen_addHost_self] at h
      exact absurd h (by simp)
    · rw [seen_addHost_ne j r n hn] at h
      rw [lookup_Meta_addHost_ne j r n hn]
      exact ih h


/-! ## The claims on `addHost` -/

theorem setAnsibleHost_filter (ifs : List mackerel.Interface) (m : GoMap Vars) (n : String)
    (p : mackerel.Interface → Bool)
    (hp : ∀ x, p x = false → isPrivateIP x.IPAddress = false) :
    setAnsibleHost m (ifs.filter p) n = setAnsibleHost m ifs n := by
  induction ifs generalizing m with
  | nil => rfl
  | cons x xs ih =>
    have hstep : setAnsibleHost m (x :: xs) n =
        setAnsibleHost (if isPrivateIP x.IPAddress then
          m.insert n (AList.singleton "ansible_host" x.IPAddress) else m) xs n := rfl
    cases hx : p x with
    | true =>
      rw [List.filter_cons_of_pos (by simpa using hx), hstep, ← ih]
      rfl
    | false =>
      rw [List.filter_cons_of_neg (by simp [hx]), hstep, hp x hx, ih]
      simp

theorem isPrivateIP_of_parse_nil (a : String) (h : net.ParseIP a = []) :
    isPrivateIP a = false := by
  unfold isPrivateIP
  rw [h]
  decide

/-- C1: `addHost` is first-write-wins.  A record whose name is already seen
leaves the whole state (groups, `Meta`, seen) as it is, whatever the record
holds; and classifying a record twice gives the state of classifying it once. -/
theorem addHost_first_write_wins (i : Inventory) (r : mackerel.Host) :
    (i.seen r.Name = true → i.addHost r = i) ∧ (i.addHost r).addHost r = i.addHost r :=
  ⟨addHost_of_seen i r, addHost_of_seen (i.addHost r) r (seen_addHost_self i r)⟩

/-- C1 at a concrete input: after `hostWeb` is classified, a different record of
the same name changes nothing. -/
theorem addHost_first_write_wins_witness :
    (NewInventory.addHost hostWeb).seen hostWebAgain.Name = true ∧
      (NewInventory.addHost hostWeb).addHost hostWebAgain = NewInventory.addHost hostWeb :=
  ⟨by decide,
    (addHost_first_write_wins (NewInventory.addHost hostWeb) hostWebAgain).1 (by decide)⟩

/-- C2: last qualifying interface wins.  In a reachable state, classifying a
record whose name is not yet seen leaves `Meta[r.Name]` equal to
`{"ansible_host": a}` for the address `a` of the last interface passing
`isPrivateIP`, and without entry when no interface passes. -/
theorem addHost_last_private_interface (i : Inventory) (r : mackerel.Host)
    (hr : Reachable i) (hseen : i.seen r.Name = false) :
    (i.addHost r).Meta.lookup r.Name = (lastPrivate r.Interfaces).map ansibleHost := by
  rw [lookup_Meta_addHost_self i r hseen]
  cases lastPrivate r.Interfaces with
  | some a => rfl
  | none => exact hr.meta_seen r.Name hseen

/-- C2 at the interfaces `[192.168.1.5, 8.8.8.8, 10.0.0.9]`: the entry is
`{"ansible_host": "10.0.0.9"}`. -/
theorem addHost_last_private_interface_witness :
    Reachable NewInventory ∧ NewInventory.seen hostWeb.Name = false ∧
      (NewInventory.addHost hostWeb).Meta.lookup "h1" = some (ansibleHost "10.0.0.9") :=
  ⟨Reachable.init, by decide,
    (addHost_last_private_interface NewInventory hostWeb Reachable.init (by decide)).trans
      (congrArg (Option.map ansibleHost)
        (show lastPrivate hostWeb.Interfaces = some "10.0.0.9" by decide))⟩

/-- C4: group membership count.  Classifying a record whose name is not yet
seen appends its name to the group `g` (any non-empty name) exactly
`memberships r g` times: once as a service, once per equal role entry, once as
platform type, once as status, with no deduplication. -/
theorem addHost_membership_count (i : Inventory) (r : mackerel.Host) (g : String)
    (hseen : i.seen r.Name = false) (hg : g ≠ "") :
    groupOf (i.addHost r).Groups g =
      groupOf i.Groups g ++ List.replicate (memberships r g) r.Name :=
  groupOf_addHost i r g hseen hg

/-- C4 at service "web" with role "frontend" and platform type "web": the
host is in "web" twice and in "frontend" once. -/
theorem addHost_membership_count_witness :
    groupOf (NewInventory.addHost hostWeb).Groups "web" = ["h1", "h1"] ∧
      groupOf (NewInventory.addHost hostWeb).Groups "frontend" = ["h1"] :=
  ⟨(addHost_membership_count NewInventory hostWeb "web" (by decide) (by decide)).trans
      (by decide),
    (addHost_membership_count NewInventory hostWeb "frontend" (by decide) (by decide)).trans
      (by decide)⟩

/-- C5: empty-field skip.  A record whose service names and role names are all
empty and whose platform type and status are empty leaves `Groups` unchanged. -/
theorem addHost_empty_fields (i : Inventory) (r : mackerel.Host)
    (hroles : ∀ e ∈ r.Roles.entries, e.1 = "" ∧ ∀ role ∈ e.2, role = "")
    (htype : r.Type_ = "") (hstatus : r.Status = "") :
    (i.addHost r).Groups = i.Groups := by
  by_cases h : i.seen r.Name = true
  · rw [addHost_of_seen i r h]
  · rw [addHost_of_not_seen i r (by simpa using h)]
    show groupBy (groupBy (groupByServices i.Groups r.Roles.entries r.Name)
      r.Type_ r.Name) r.Status r.Name = i.Groups
    rw [htype, hstatus, groupBy_empty, groupBy_empty, groupByServices_empty _ _ _ hroles]

/-- C5 at `hostBlank`, classified after `hostWeb`. -/
theorem addHost_empty_fields_witness :
    ((NewInventory.addHost hostWeb).addHost hostBlank).Groups =
      (NewInventory.addHost hostWeb).Groups :=
  addHost_empty_fields (NewInventory.addHost hostWeb) hostBlank (by decide) rfl rfl

/-- C7: when the Host Source query fails, `List` returns exactly
`{"_meta":{"hostvars":{}}}`, from every engine state. -/
theorem List_failure_fallback (i : Inventory) :
    (i.List none).2 = "\x7b\"_meta\":\x7b\"hostvars\":\x7b\x7d\x7d\x7d" := rfl

/-- C10: malformed addresses are skipped.  A string that is no IP address
(`ParseIP` gives `nil`), such as "not-an-ip" or the empty string, is not
private; and `addHost` gives the same state as on the record with its
unparseable interfaces removed. -/
theorem addHost_skips_unparseable :
    (∀ a : String, net.ParseIP a = [] → isPrivateIP a = false) ∧
      net.ParseIP "not-an-ip" = [] ∧ net.ParseIP "" = [] ∧
      ∀ (i : Inventory) (r : mackerel.Host), i.addHost (dropUnparseable r) = i.addHost r := by
  refine ⟨isPrivateIP_of_parse_nil, by decide, by decide, ?_⟩
  intro i r
  by_cases h : i.seen r.Name = true
  · rw [addHost_of_seen i r h]
    exact addHost_of_seen i (dropUnparseable r) h
  · have h' : i.seen r.Name = false := by simpa using h
    rw [addHost_of_not_seen i r h', addHost_of_not_seen i (dropUnparseable r) h']
    show Inventory.mk _ _ (setAnsibleHost i.Meta (r.Interfaces.filter _) r.Name) = _
    rw [setAnsibleHost_filter]
    · rfl
    · intro x hx
      exact isPrivateIP_of_parse_nil _ (by simpa using hx)

/-- C10 at `hostBadAddress`, whose second and third interfaces do not parse. -/
theorem addHost_skips_unparseable_witness :
    isPrivateIP "not-an-ip" = false ∧
      (dropUnparseable hostBadAddress).Interfaces = [⟨"10.0.0.1"⟩, ⟨"192.168.0.7"⟩] ∧
      NewInventory.addHost (dropUnparseable hostBadAddress) =
        NewInventory.addHost hostBadAddress :=
  ⟨addHost_skips_unparseable.1 "not-an-ip" (by decide), by decide,
    addHost_skips_unparseable.2.2.2 NewInventory hostBadAddress⟩

/-! ## The private-address classifier on dotted quads -/

set_option maxRecDepth 100000 in
theorem octet_text : ∀ a, a < 256 →
    ((toString a).toList.all net.isDec = true ∧ (toString a).toList ≠ [] ∧
      net.dtoiLoop (toString a).toList 0 0 = (a, (toString a).toList.length, true)) := by
  decide

set_option maxRecDepth 100000 in
theorem octet_no_leading_zero : ∀ a, a < 256 →
    ¬ ((toString a).toList.length > 1 ∧ (toString a).toList.head? = some '0') := by
  decide

theorem head?_append_of_ne (ds rest : List Char) (hne : ds ≠ []) :
    (ds ++ rest).head? = ds.head? := by
  cases ds with
  | nil => exact absurd rfl hne
  | cons c t => rfl

set_option maxRecDepth 100000 in
theorem and_255 : ∀ a, a < 256 → a &&& 255 = a := by decide

set_option maxRecDepth 100000 in
theorem and_240 : ∀ b, b < 256 → (b &&& 240 = 16 ↔ (16 ≤ b ∧ b ≤ 31)) := by decide

theorem dtoiLoop_append (ds rest : List Char) (n i : Nat)
    (hds : ds.all net.isDec = true) (hok : (net.dtoiLoop ds n i).2.2 = true) :
    net.dtoiLoop (ds ++ rest) n i =
      net.dtoiLoop rest (net.dtoiLoop ds n i).1 (net.dtoiLoop ds n i).2.1 := by
  induction ds generalizing n i with
  | nil => rfl
  | cons c ds ih =>
    simp only [List.all_cons, Bool.and_eq_true] at hds
    simp only [List.cons_append, net.dtoiLoop, hds.1, if_true] at hok ⊢
    by_cases hbig : n * 10 + (c.toNat - 48) ≥ net.big
    · simp [hbig] at hok
    · simp only [hbig, if_false] at hok ⊢
      exact ih _ _ hds.2 hok

theorem dtoiLoop_dotOrEnd (rest : List Char) (h : dotOrEnd rest) (n i : Nat) :
    net.dtoiLoop rest n i = (n, i, true) := by
  rcases h with h | ⟨t, h⟩
  · subst h; rfl
  · subst h
    have : net.isDec '.' = false := by decide
    simp [net.dtoiLoop, this]

theorem dtoi_octet (ds : List Char) (a : Nat) (hds : ds.all net.isDec = true) (hne : ds ≠ [])
    (hloop : net.dtoiLoop ds 0 0 = (a, ds.length, true))
    (rest : List Char) (h : dotOrEnd rest) :
    net.dtoi (ds ++ rest) = (a, ds.length, true) := by
  have hlen : ds.length ≠ 0 := by
    intro h0; exact hne (List.length_eq_zero.mp h0)
  unfold net.dtoi
  rw [dtoiLoop_append _ _ _ _ hds (by rw [hloop]), hloop, dtoiLoop_dotOrEnd rest h]
  simp [hlen]

theorem parseIPv4Loop_first (ds : List Char) (a : Nat) (ha : a < 256)
    (hds : ds.all net.isDec = true) (hne : ds ≠ [])
    (hloop : net.dtoiLoop ds 0 0 = (a, ds.length, true))
    (hlead : ¬ (ds.length > 1 ∧ ds.head? = some '0'))
    (rest : List Char) (h : dotOrEnd rest) (k : Nat) (p : List Nat) :
    net.parseIPv4Loop (k + 1) true (ds ++ rest) p =
      net.parseIPv4Loop k false rest (p ++ [a]) := by
  have ha' : ¬ a > 255 := by omega
  have hlead' : ¬ (ds.length > 1 ∧ (ds ++ rest).head? = some '0') := by
    rw [head?_append_of_ne ds rest hne]; exact hlead
  have hlen : (ds ++ rest).length ≠ 0 := by
    intro h0
    exact hne (List.append_eq_nil.mp (List.length_eq_zero.mp h0)).1
  conv_lhs => unfold net.parseIPv4Loop
  simp only [hlen, if_false, if_true, dtoi_octet ds a hds hne hloop rest h, Bool.not_true,
    Bool.false_or, decide_eq_true_eq, ha', hlead', List.drop_left]

theorem parseIPv4Loop_next (ds : List Char) (a : Nat) (ha : a < 256)
    (hds : ds.all net.isDec = true) (hne : ds ≠ [])
    (hloop : net.dtoiLoop ds 0 0 = (a, ds.length, true))
    (hlead : ¬ (ds.length > 1 ∧ ds.head? = some '0'))
    (rest : List Char) (h : dotOrEnd rest) (k : Nat) (p : List Nat) :
    net.parseIPv4Loop (k + 1) false ('.' :: (ds ++ rest)) p =
      net.parseIPv4Loop k false rest (p ++ [a]) := by
  have ha' : ¬ a > 255 := by omega
  have hlead' : ¬ (ds.length > 1 ∧ (ds ++ rest).head? = some '0') := by
    rw [head?_append_of_ne ds rest hne]; exact hlead
  have hlen : ('.' :: (ds ++ rest)).length ≠ 0 := by simp
  conv_lhs => unfold net.parseIPv4Loop
  simp only [hlen, if_false, ne_eq, not_true_eq_false, Bool.false_eq_true,
    dtoi_octet ds a hds hne hloop rest h, Bool.not_true,
    Bool.false_or, decide_eq_true_eq, ha', hlead', List.drop_left]

theorem parseIPScan_digits (whole ds rest : List Char) (hds : ds.all net.isDec = true) :
    net.parseIPScan whole (ds ++ '.' :: rest) = net.parseIPv4 whole := by
  induction ds with
  | nil => simp [net.parseIPScan]
  | cons c ds ih =>
    simp only [List.all_cons, Bool.and_eq_true] at hds
    have h1 : c ≠ '.' := by
      intro h; rw [h] at hds; exact absurd hds.1 (by decide)
    have h2 : c ≠ ':' := by
      intro h; rw [h] at hds; exact absurd hds.1 (by decide)
    simp only [List.cons_append, net.parseIPScan, h1, h2, if_false]
    exact ih hds.2

theorem dottedQuad_toList (a b c d : Nat) :
    (dottedQuad a b c d).toList =
      (toString a).toList ++ '.' :: ((toString b).toList ++ '.' ::
        ((toString c).toList ++ '.' :: ((toString d).toList ++ []))) := by
  simp [dottedQuad, String.toList]

theorem ParseIP_dottedQuad (a b c d : Nat) (ha : a < 256) (hb : b < 256) (hc : c < 256)
    (hd : d < 256) : net.ParseIP (dottedQuad a b c d) = net.IPv4 a b c d := by
  obtain ⟨a1, a2, a3⟩ := octet_text a ha
  obtain ⟨b1, b2, b3⟩ := octet_text b hb
  obtain ⟨c1, c2, c3⟩ := octet_text c hc
  obtain ⟨d1, d2, d3⟩ := octet_text d hd
  unfold net.ParseIP
  have hscan := parseIPScan_digits (dottedQuad a b c d).toList (toString a).toList
    ((toString b).toList ++ '.' :: ((toString c).toList ++ '.' :: ((toString d).toList ++ [])))
    a1
  rw [← dottedQuad_toList] at hscan
  rw [hscan, net.parseIPv4, dottedQuad_toList,
    parseIPv4Loop_first _ a ha a1 a2 a3 (octet_no_leading_zero a ha) _ (Or.inr ⟨_, rfl⟩),
    parseIPv4Loop_next _ b hb b1 b2 b3 (octet_no_leading_zero b hb) _ (Or.inr ⟨_, rfl⟩),
    parseIPv4Loop_next _ c hc c1 c2 c3 (octet_no_leading_zero c hc) _ (Or.inr ⟨_, rfl⟩),
    parseIPv4Loop_next _ d hd d1 d2 d3 (octet_no_leading_zero d hd) _ (Or.inl rfl)]
  rfl

theorem Contains_IPv4 (n0 n1 n2 n3 m0 m1 m2 m3 a b c d : Nat) :
    net.IPNet.Contains ⟨[n0, n1, n2, n3], [m0, m1, m2, m3]⟩ (net.IPv4 a b c d) =
      ((n0 &&& m0 == a &&& m0) && (n1 &&& m1 == b &&& m1) &&
        (n2 &&& m2 == c &&& m2) && (n3 &&& m3 == d &&& m3)) := by
  simp [net.IPNet.Contains, net.networkNumberAndMask, net.To4, net.IPv4, net.IPv4len,
    net.IPv6len, Bool.and_assoc]

theorem isPrivateIP_IPv4 (a b c d : Nat) (ha : a < 256) (hb : b < 256) :
    privateIPNets.any (fun e => e.2.Contains (net.IPv4 a b c d)) = true ↔
      (a = 10 ∨ (a = 172 ∧ 16 ≤ b ∧ b ≤ 31) ∨ (a = 192 ∧ b = 168)) := by
  simp only [privateIPNets, List.any_cons, List.any_nil, Contains_IPv4, Bool.or_false,
    Bool.or_eq_true, Bool.and_eq_true, beq_iff_eq, Nat.and_zero, and_true]
  have h255 : (255 : Nat) = 0xff := rfl
  have h240 : (240 : Nat) = 0xf0 := rfl
  rw [← h255, ← h240, and_255 a ha, and_255 b hb]
  have e1 : (0xa : Nat) &&& 255 = 10 := by decide
  have e2 : (0xac : Nat) &&& 255 = 172 := by decide
  have e3 : (0x10 : Nat) &&& 240 = 16 := by decide
  have e4 : (0xc0 : Nat) &&& 255 = 192 := by decide
  have e5 : (0xa8 : Nat) &&& 255 = 168 := by decide
  rw [e1, e2, e3, e4, e5]
  have := and_240 b hb
  constructor
  · rintro (h | ⟨h1, h2⟩ | ⟨h1, h2⟩)
    · exact Or.inl h.symm
    · exact Or.inr (Or.inl ⟨h1.symm, this.mp h2.symm⟩)
    · exact Or.inr (Or.inr ⟨h1.symm, h2.symm⟩)
  · rintro (h | ⟨h1, h2⟩ | ⟨h1, h2⟩)
    · exact Or.inl h.symm
    · exact Or.inr (Or.inl ⟨h1.symm, (this.mpr h2).symm⟩)
    · exact Or.inr (Or.inr ⟨h1.symm, h2.symm⟩)

/-- C3: private-range characterisation.  For octets `a b c d` below 256 the
text `a.b.c.d` passes `isPrivateIP` exactly when it lies in 10.0.0.0/8,
172.16.0.0/12 or 192.168.0.0/16. -/
theorem isPrivateIP_dottedQuad (a b c d : Nat) (ha : a < 256) (hb : b < 256) (hc : c < 256)
    (hd : d < 256) :
    isPrivateIP (dottedQuad a b c d) = true ↔
      (a = 10 ∨ (a = 172 ∧ 16 ≤ b ∧ b ≤ 31) ∨ (a = 192 ∧ b = 168)) := by
  unfold isPrivateIP
  rw [ParseIP_dottedQuad a b c d ha hb hc hd]
  exact isPrivateIP_IPv4 a b c d ha hb

/-- C3 at the boundary addresses: 10.255.255.255, 172.31.255.255 and
192.168.255.255 are private; 11.0.0.0, 172.32.0.0 and 192.169.0.0 are not. -/
theorem isPrivateIP_dottedQuad_witness :
    (dottedQuad 10 255 255 255 = "10.255.255.255" ∧ isPrivateIP "10.255.255.255" = true) ∧
      (dottedQuad 172 31 255 255 = "172.31.255.255" ∧ isPrivateIP "172.31.255.255" = true) ∧
      (dottedQuad 192 168 255 255 = "192.168.255.255" ∧
        isPrivateIP "192.168.255.255" = true) ∧
      isPrivateIP "11.0.0.0" = false ∧ isPrivateIP "172.32.0.0" = false ∧
      isPrivateIP "192.169.0.0" = false :=
  ⟨⟨by decide, (isPrivateIP_dottedQuad 10 255 255 255 (by decide) (by decide) (by decide)
      (by decide)).mpr (Or.inl rfl)⟩,
    ⟨by decide, (isPrivateIP_dottedQuad 172 31 255 255 (by decide) (by decide) (by decide)
      (by decide)).mpr (Or.inr (Or.inl ⟨rfl, by decide, by decide⟩))⟩,
    ⟨by decide, (isPrivateIP_dottedQuad 192 168 255 255 (by decide) (by decide) (by decide)
      (by decide)).mpr (Or.inr (Or.inr ⟨rfl, rfl⟩))⟩,
    by decide, by decide, by decide⟩

/-! ## The list document -/

theorem lookup_foldl_insert (l : List (Sigma (fun _ : String => List String)))
    (hl : l.NodupKeys) (base : GoMap DataValue) (k : String) :
    (l.foldl (fun d e => d.insert e.1 (DataValue.names e.2)) base).lookup k =
      match l.dlookup k with
      | some v => some (DataValue.names v)
      | none => base.lookup k := by
  induction l generalizing base with
  | nil => rfl
  | cons e rest ih =>
    obtain ⟨a, b⟩ := e
    obtain ⟨hk, hrest⟩ := List.nodupKeys_cons.mp hl
    rw [List.foldl_cons, ih hrest]
    by_cases h : k = a
    · subst h
      have hnone : List.dlookup k rest = none := List.dlookup_eq_none.mpr hk
      rw [hnone, List.dlookup_cons_eq]
      exact AList.lookup_insert _
    · rw [List.dlookup_cons_ne _ _ h, AList.lookup_insert_ne h]

theorem lookup_data (i : Inventory) (k : String) :
    i.data.lookup k =
      match i.Groups.lookup k with
      | some v => some (DataValue.names v)
      | none => if k = "_meta" then some (DataValue.hostVars i.Meta) else none := by
  unfold Inventory.data
  rw [lookup_foldl_insert _ i.Groups.nodupKeys]
  have hl : List.dlookup k i.Groups.entries = i.Groups.lookup k := rfl
  rw [hl]
  cases i.Groups.lookup k with
  | some v => rfl
  | none =>
    by_cases h : k = "_meta"
    · subst h
      exact AList.lookup_insert _
    · rw [if_neg h]
      exact (AList.lookup_insert_ne h).trans (AList.lookup_empty k)

theorem mem_sortedEntries {V : Type} (m : GoMap V) (k : String) (v : V) :
    (k, v) ∈ json.sortedEntries m ↔ m.lookup k = some v := by
  unfold json.sortedEntries
  rw [(List.perm_insertionSort _ _).mem_iff, List.mem_map]
  constructor
  · rintro ⟨⟨a, b⟩, he, heq⟩
    simp only [Prod.mk.injEq] at heq
    obtain ⟨h1, h2⟩ := heq
    subst h1; subst h2
    exact AList.mem_lookup_iff.mpr he
  · intro h
    exact ⟨⟨k, v⟩, AList.mem_lookup_iff.mp h, rfl⟩

/-- C6, as amended: in a state where no group is named `_meta`, the map
marshalled by `MarshalJSON` has exactly the group names and `_meta` as keys,
every group name maps to the array of that group and `_meta` maps to the struct
`{"hostvars": Meta}`; the document, also the one of a successful `List`, is the
JSON object whose members are the entries of that map. -/
theorem MarshalJSON_shape (i : Inventory) (h : i.Groups.lookup "_meta" = none) :
    (∀ k, k ∈ i.data ↔ (k ∈ i.Groups ∨ k = "_meta")) ∧
      (∀ g v, i.Groups.lookup g = some v → i.data.lookup g = some (DataValue.names v)) ∧
      i.data.lookup "_meta" = some (DataValue.hostVars i.Meta) ∧
      i.MarshalJSON =
        json.encodeObject ((json.sortedEntries i.data).map (fun kv => (kv.1, kv.2.encode))) ∧
      (∀ k v, (k, v) ∈ json.sortedEntries i.data ↔ i.data.lookup k = some v) ∧
      ∀ (j : Inventory) (hosts : List mackerel.Host),
        j.addHosts hosts = i → (j.List (some hosts)).2 = i.MarshalJSON := by
  refine ⟨?_, ?_, ?_, rfl, mem_sortedEntries i.data, ?_⟩
  · intro k
    rw [← AList.lookup_isSome, ← AList.lookup_isSome, lookup_data]
    cases i.Groups.lookup k with
    | some v => simp
    | none => by_cases hk : k = "_meta" <;> simp [hk]
  · intro g v hg
    rw [lookup_data, hg]
  · rw [lookup_data, h]
    simp
  · intro j hosts hj
    subst hj
    rfl

/-- C6 as amended, at the state after `hostWeb`: no group is named `_meta` and
the key holds the host variables. -/
theorem MarshalJSON_shape_witness :
    (NewInventory.addHost hostWeb).Groups.lookup "_meta" = none ∧
      (NewInventory.addHost hostWeb).data.lookup "_meta" =
        some (DataValue.hostVars (NewInventory.addHost hostWeb).Meta) ∧
      (NewInventory.List (some [hostWeb])).2 =
        "\x7b\"_meta\":\x7b\"hostvars\":\x7b\"h1\":\x7b\"ansible_host\":\"10.0.0.9\"\x7d\x7d\x7d,\"frontend\":[\"h1\"],\"web\":[\"h1\",\"h1\"]\x7d" :=
  ⟨by decide, (MarshalJSON_shape (NewInventory.addHost hostWeb) (by decide)).2.2.1,
    by decide⟩

/-- C6 fails for a group named `_meta`: after classifying `hostMetaStatus`
(status `_meta`, private address 10.0.0.1) the host has variables, yet the key
`_meta` of the document holds the group and the variables are not in it. -/
theorem MarshalJSON_meta_group_counterexample :
    (NewInventory.addHost hostMetaStatus).Groups.lookup "_meta" = some ["h4"] ∧
      (NewInventory.addHost hostMetaStatus).Meta.lookup "h4" = some (ansibleHost "10.0.0.1") ∧
      (NewInventory.addHost hostMetaStatus).data.lookup "_meta" =
        some (DataValue.names ["h4"]) ∧
      (NewInventory.addHost hostMetaStatus).data.lookup "_meta" ≠
        some (DataValue.hostVars (NewInventory.addHost hostMetaStatus).Meta) ∧
      (NewInventory.List (some [hostMetaStatus])).2 = "\x7b\"_meta\":[\"h4\"]\x7d" := by
  refine ⟨by decide, rfl, rfl, ?_, by decide⟩
  intro h
  have h2 : (NewInventory.addHost hostMetaStatus).data.lookup "_meta" =
      some (DataValue.names ["h4"]) := rfl
  rw [h2] at h
  cases h

/-! ## The host document -/

theorem find?_key (l : List (Sigma (fun _ : String => Vars))) (k : String) :
    l.find? (fun e => e.1 == k) = (l.dlookup k).map (fun v => ⟨k, v⟩) := by
  induction l with
  | nil => rfl
  | cons e rest ih =>
    obtain ⟨a, b⟩ := e
    by_cases h : a = k
    · subst h
      rw [List.find?_cons_of_pos _ (by simp), List.dlookup_cons_eq]
      rfl
    · have h' : k ≠ a := fun x => h x.symm
      rw [List.dlookup_cons_ne _ _ h', ← ih, List.find?_cons_of_neg _ (by simpa using h)]

theorem Host_of_lookup (i : Inventory) (hosts : List mackerel.Host) (n : String) :
    (i.Host (some hosts) n).2 =
      match (i.addHosts hosts).Meta.lookup n with
      | some vars => encodeVars vars
      | none => "\x7b\x7d" := by
  have hl : (i.addHosts hosts).Meta.lookup n =
    List.dlookup n (i.addHosts hosts).Meta.entries := rfl
  simp only [Inventory.Host, find?_key, hl]
  cases List.dlookup n (i.addHosts hosts).Meta.entries with
  | some v => rfl
  | none => rfl

theorem seen_addHosts_mono (hosts : List mackerel.Host) (i : Inventory) (n : String)
    (h : i.seen n = true) : (i.addHosts hosts).seen n = true := by
  induction hosts generalizing i with
  | nil => exact h
  | cons r rest ih => exact ih (i.addHost r) (seen_addHost_mono i r n h)

theorem lookup_Meta_addHost_seen (i : Inventory) (r : mackerel.Host) (n : String)
    (h : i.seen n = true) : (i.addHost r).Meta.lookup n = i.Meta.lookup n := by
  by_cases hn : n = r.Name
  · subst hn; rw [addHost_of_seen i r h]
  · exact lookup_Meta_addHost_ne i r n hn

theorem lookup_Meta_addHosts_seen (hosts : List mackerel.Host) (i : Inventory) (n : String)
    (h : i.seen n = true) : (i.addHosts hosts).Meta.lookup n = i.Meta.lookup n := by
  induction hosts generalizing i with
  | nil => rfl
  | cons r rest ih =>
    have hstep : i.addHosts (r :: rest) = (i.addHost r).addHosts rest := rfl
    rw [hstep, ih (i.addHost r) (seen_addHost_mono i r n h), lookup_Meta_addHost_seen i r n h]

theorem lookup_Meta_addHosts (hosts : List mackerel.Host) (i : Inventory) (n : String)
    (hseen : i.seen n = false) (hmeta : i.Meta.lookup n = none) :
    (i.addHosts hosts).Meta.lookup n =
      (firstNamed hosts n).bind (fun r => (lastPrivate r.Interfaces).map ansibleHost) := by
  induction hosts generalizing i with
  | nil => exact hmeta
  | cons r rest ih =>
    have hstep : i.addHosts (r :: rest) = (i.addHost r).addHosts rest := rfl
    rw [hstep]
    by_cases hn : r.Name = n
    · subst hn
      have hfirst : firstNamed (r :: rest) r.Name = some r :=
        List.find?_cons_of_pos _ (by simp)
      rw [hfirst, lookup_Meta_addHosts_seen rest _ _ (seen_addHost_self i r),
        lookup_Meta_addHost_self i r hseen, hmeta, Option.some_bind]
      cases lastPrivate r.Interfaces with
      | some a => rfl
      | none => rfl
    · have hn' : n ≠ r.Name := fun x => hn x.symm
      have hfirst : firstNamed (r :: rest) n = firstNamed rest n :=
        List.find?_cons_of_neg _ (by simpa using hn)
      rw [hfirst]
      apply ih
      · rw [seen_addHost_ne i r n hn']; exact hseen
      · rw [lookup_Meta_addHost_ne i r n hn']; exact hmeta

theorem lastPrivate_eq_none (ifs : List mackerel.Interface) :
    lastPrivate ifs = none ↔ ∀ x ∈ ifs, isPrivateIP x.IPAddress = false := by
  simp [lastPrivate, List.find?_eq_none]

theorem lastPrivate_private (ifs : List mackerel.Interface) (a : String)
    (h : lastPrivate ifs = some a) : isPrivateIP a = true := by
  unfold lastPrivate at h
  cases hf : List.find? (fun x => isPrivateIP x.IPAddress) ifs.reverse with
  | none => rw [hf] at h; cases h
  | some x =>
    rw [hf] at h
    have hx := List.find?_some hf
    simp only [Option.map_some', Option.some.injEq] at h
    rw [← h]; exact hx

theorem firstNamed_eq_none (hosts : List mackerel.Host) (n : String) :
    firstNamed hosts n = none ↔ ∀ h ∈ hosts, h.Name ≠ n := by
  simp [firstNamed, List.find?_eq_none]

/-- C8: host-query miss.  On a fresh engine `Host n` returns exactly `{}` when
the Host Source query fails, when no returned record is named `n`, and when the
first returned record named `n` has no interface passing `isPrivateIP`,
whatever other records the source returns. -/
theorem Host_miss (found : mackerel.FindHostsResult) (n : String)
    (h : found = none ∨
      (∃ hosts, found = some hosts ∧ ∀ r ∈ hosts, r.Name ≠ n) ∨
      (∃ hosts r, found = some hosts ∧ firstNamed hosts n = some r ∧
        ∀ x ∈ r.Interfaces, isPrivateIP x.IPAddress = false)) :
    (NewInventory.Host found n).2 = "\x7b\x7d" := by
  rcases h with h | ⟨hosts, h, hnone⟩ | ⟨hosts, r, h, hfirst, hifs⟩
  · subst h; rfl
  · subst h
    rw [Host_of_lookup, lookup_Meta_addHosts hosts NewInventory n rfl rfl,
      (firstNamed_eq_none hosts n).mpr hnone]
    rfl
  · subst h
    rw [Host_of_lookup, lookup_Meta_addHosts hosts NewInventory n rfl rfl, hfirst,
      Option.some_bind, (lastPrivate_eq_none r.Interfaces).mpr hifs]
    rfl

/-- C8 at a source that returns `hostWeb` and then `hostPublic`, queried for
the name of `hostPublic`, whose only address is public. -/
theorem Host_miss_witness :
    firstNamed [hostWeb, hostPublic] "h5" = some hostPublic ∧
      (NewInventory.Host (some [hostWeb, hostPublic]) "h5").2 = "\x7b\x7d" :=
  ⟨rfl, Host_miss (some [hostWeb, hostPublic]) "h5"
    (Or.inr (Or.inr ⟨[hostWeb, hostPublic], hostPublic, rfl, rfl, by decide⟩))⟩

/-! ## The text of a parsed address needs no escaping -/

theorem xtoiLoop_chars (s : List Char) (n i n1 i1 : Nat)
    (h : net.xtoiLoop s n i = (n1, i1, true)) :
    i ≤ i1 ∧ ∀ x ∈ s.take (i1 - i), (net.hexVal x).isSome = true := by
  induction s generalizing n i with
  | nil =>
    simp only [net.xtoiLoop, Prod.mk.injEq] at h
    simp [h.2.1]
  | cons c s ih =>
    unfold net.xtoiLoop at h
    cases hc : net.hexVal c with
    | none =>
      simp only [hc, Prod.mk.injEq] at h
      simp [h.2.1]
    | some d =>
      simp only [hc] at h
      by_cases hbig : n * 16 + d ≥ net.big
      · simp [hbig] at h
      · simp only [hbig, if_false] at h
        obtain ⟨h1, h2⟩ := ih _ _ h
        refine ⟨by omega, ?_⟩
        have e : i1 - i = (i1 - (i + 1)) + 1 := by omega
        rw [e, List.take_succ_cons]
        intro x hx
        rcases List.mem_cons.mp hx with hx | hx
        · rw [hx, hc]; rfl
        · exact h2 x hx

theorem xtoi_chars (s : List Char) (n c : Nat) (h : net.xtoi s = (n, c, true)) :
    ∀ x ∈ s.take c, (net.hexVal x).isSome = true := by
  unfold net.xtoi at h
  rcases hl : net.xtoiLoop s 0 0 with ⟨n1, i1, ok⟩
  rw [hl] at h
  cases ok with
  | false => simp at h
  | true =>
    by_cases h0 : i1 = 0
    · simp [h0] at h
    · simp only [Bool.not_true, Bool.false_eq_true, if_false, h0, Prod.mk.injEq] at h
      have := (xtoiLoop_chars s 0 0 n1 i1 hl).2
      rw [← h.2.1]
      simpa using this

theorem dtoiLoop_chars (s : List Char) (n i n1 i1 : Nat)
    (h : net.dtoiLoop s n i = (n1, i1, true)) :
    i ≤ i1 ∧ ∀ x ∈ s.take (i1 - i), net.isDec x = true := by
  induction s generalizing n i with
  | nil =>
    simp only [net.dtoiLoop, Prod.mk.injEq] at h
    simp [h.2.1]
  | cons c s ih =>
    unfold net.dtoiLoop at h
    cases hc : net.isDec c with
    | false =>
      simp only [hc, Bool.false_eq_true, if_false, Prod.mk.injEq] at h
      simp [h.2.1]
    | true =>
      simp only [hc, if_true] at h
      by_cases hbig : n * 10 + (c.toNat - 48) ≥ net.big
      · simp [hbig] at h
      · simp only [hbig, if_false] at h
        obtain ⟨h1, h2⟩ := ih _ _ h
        refine ⟨by omega, ?_⟩
        have e : i1 - i = (i1 - (i + 1)) + 1 := by omega
        rw [e, List.take_succ_cons]
        intro x hx
        rcases List.mem_cons.mp hx with hx | hx
        · rw [hx, hc]
        · exact h2 x hx

theorem dtoi_chars (s : List Char) (n c : Nat) (h : net.dtoi s = (n, c, true)) :
    ∀ x ∈ s.take c, net.isDec x = true := by
  unfold net.dtoi at h
  rcases hl : net.dtoiLoop s 0 0 with ⟨n1, i1, ok⟩
  rw [hl] at h
  cases ok with
  | false => simp at h
  | true =>
    by_cases h0 : i1 = 0
    · simp [h0] at h
    · simp only [Bool.not_true, Bool.false_eq_true, if_false, h0, Prod.mk.injEq] at h
      have := (dtoiLoop_chars s 0 0 n1 i1 hl).2
      rw [← h.2.1]
      simpa using this

theorem ipChar_of_isDec (x : Char) (h : net.isDec x = true) : ipChar x = true := by
  simp only [net.isDec, Bool.and_eq_true, decide_eq_true_eq] at h
  simp [ipChar, net.hexVal, h.1, h.2]

theorem ipChar_of_hex (x : Char) (h : (net.hexVal x).isSome = true) : ipChar x = true := by
  simp [ipChar, h]

theorem ipChar_dot : ipChar '.' = true := by decide

theorem ipChar_colon : ipChar ':' = true := by decide

theorem mem_take_drop (s : List Char) (c : Nat) (P : Char → Prop)
    (h1 : ∀ x ∈ s.take c, P x) (h2 : ∀ x ∈ s.drop c, P x) : ∀ x ∈ s, P x := by
  intro x hx
  rw [← List.take_append_drop c s] at hx
  rcases List.mem_append.mp hx with h | h
  · exact h1 x h
  · exact h2 x h

theorem parseIPv4Loop_chars (k : Nat) (first : Bool) (s : List Char) (p q : List Nat)
    (h : net.parseIPv4Loop k first s p = some q) : ∀ x ∈ s, ipChar x = true := by
  induction k generalizing first s p with
  | zero =>
    unfold net.parseIPv4Loop at h
    by_cases hs : s.length ≠ 0
    · simp [hs] at h
    · have : s = [] := List.length_eq_zero.mp (by simpa using hs)
      subst this; simp
  | succ k ih =>
    unfold net.parseIPv4Loop at h
    by_cases hs : s.length = 0
    · simp [hs] at h
    · simp only [hs, if_false] at h
      have step : ∀ s1 : List Char,
          (match net.dtoi s1 with
            | (n, c, ok) =>
              if (!ok || decide (n > 0xFF)) = true then none
              else if c > 1 ∧ s1.head? = some '0' then none
              else net.parseIPv4Loop k false (s1.drop c) (p ++ [n])) = some q →
          ∀ x ∈ s1, ipChar x = true := by
        intro s1 h1
        rcases hd : net.dtoi s1 with ⟨n, c, ok⟩
        rw [hd] at h1
        cases ok with
        | false => simp at h1
        | true =>
          by_cases hn : n > 0xFF
          · simp [hn] at h1
          · simp only [Bool.not_true, Bool.false_or, decide_eq_true_eq, hn, if_false] at h1
            by_cases hz : c > 1 ∧ s1.head? = some '0'
            · rw [if_pos hz] at h1
              cases h1
            · rw [if_neg hz] at h1
              exact mem_take_drop s1 c _
                (fun x hx => ipChar_of_isDec x (dtoi_chars s1 n c hd x hx))
                (ih false _ _ h1)
      cases first with
      | true => exact step s h
      | false =>
        cases s with
        | nil => simp at hs
        | cons c t =>
          by_cases hc : c = '.'
          · subst hc
            simp only [ne_eq, not_true_eq_false, if_false, Bool.false_eq_true] at h
            intro x hx
            rcases List.mem_cons.mp hx with hx | hx
            · rw [hx]; exact ipChar_dot
            · exact step t h x hx
          · simp [hc] at h

theorem parseIPv4_chars (s : List Char) (h : net.parseIPv4 s ≠ []) :
    ∀ x ∈ s, ipChar x = true := by
  unfold net.parseIPv4 at h
  cases hp : net.parseIPv4Loop 4 true s [] with
  | none => rw [hp] at h; exact absurd rfl h
  | some q => exact parseIPv4Loop_chars 4 true s [] q hp

theorem parseIPv6Finish_nil (s : List Char) (e : Option Nat) (ip : List Nat)
    (h : net.parseIPv6Finish s e ip ≠ []) : s = [] := by
  unfold net.parseIPv6Finish at h
  by_cases hs : s.length ≠ 0
  · simp [hs] at h
  · exact List.length_eq_zero.mp (by simpa using hs)

theorem parseIPv6Loop_chars (fuel : Nat) (s : List Char) (e : Option Nat) (ip : List Nat)
    (h : net.parseIPv6Loop fuel s e ip ≠ []) : ∀ x ∈ s, ipChar x = true := by
  induction fuel generalizing s e ip with
  | zero =>
    unfold net.parseIPv6Loop at h
    rw [parseIPv6Finish_nil s e ip h]; simp
  | succ fuel ih =>
    unfold net.parseIPv6Loop at h
    by_cases hlen : ¬ ip.length < net.IPv6len
    · simp only [hlen, not_false_eq_true, if_true] at h
      rw [parseIPv6Finish_nil s e ip h]; simp
    · simp only [hlen, if_false] at h
      rcases hx : net.xtoi s with ⟨n, c, ok⟩
      rw [hx] at h
      cases ok with
      | false => simp at h
      | true =>
        have hhex : ∀ x ∈ s.take c, ipChar x = true :=
          fun x hx1 => ipChar_of_hex x (xtoi_chars s n c hx x hx1)
        by_cases hn : n > 0xFFFF
        · simp [hn] at h
        · by_cases hc4 : c > 4
          · simp [hc4] at h
          · simp only [Bool.not_true, Bool.false_or, Bool.or_eq_true, decide_eq_true_eq, hn,
              hc4, or_self, if_false] at h
            by_cases hdot : c < s.length ∧ s.get? c = some '.'
            · simp only [hdot, and_self, if_true] at h
              apply parseIPv4_chars s
              intro h4
              rw [h4] at h
              simp at h
            · simp only [hdot, if_false] at h
              apply mem_take_drop s c _ hhex
              generalize List.drop c s = s1 at h
              cases s1 with
              | nil => simp
              | cons c0 s2 =>
                simp only [List.length_cons, Nat.add_one_ne_zero, if_false] at h
                by_cases hc0 : c0 = ':'
                · subst hc0
                  by_cases h1 : s2.length + 1 = 1
                  · simp [h1] at h
                  · simp only [ne_eq, not_true_eq_false, h1, or_self, if_false] at h
                    suffices hs2 : ∀ x ∈ s2, ipChar x = true by
                      intro x hx1
                      rcases List.mem_cons.mp hx1 with hx1 | hx1
                      · rw [hx1]; exact ipChar_colon
                      · exact hs2 x hx1
                    · cases s2 with
                      | nil => simp
                      | cons c1 s3 =>
                        by_cases hc1 : c1 = ':'
                        · subst hc1
                          simp only at h
                          by_cases he : e ≠ none
                          · simp [he] at h
                          · simp only [he, if_false] at h
                            intro x hx1
                            rcases List.mem_cons.mp hx1 with hx1 | hx1
                            · rw [hx1]; exact ipChar_colon
                            · by_cases h3 : s3.length = 0
                              · rw [List.length_eq_zero.mp h3] at hx1
                                simp at hx1
                              · simp only [h3, if_false] at h
                                exact ih _ _ _ h x hx1
                        · have hm : (match c1 :: s3 with
                              | ':' :: s3 =>
                                if e ≠ none then []
                                else
                                  if s3.length = 0 then
                                    net.parseIPv6Finish s3
                                      (some (ip ++ [n / 256 % 256, n % 256]).length)
                                      (ip ++ [n / 256 % 256, n % 256])
                                  else
                                    net.parseIPv6Loop fuel s3
                                      (some (ip ++ [n / 256 % 256, n % 256]).length)
                                      (ip ++ [n / 256 % 256, n % 256])
                              | _ => net.parseIPv6Loop fuel (c1 :: s3) e
                                  (ip ++ [n / 256 % 256, n % 256])) =
                              net.parseIPv6Loop fuel (c1 :: s3) e
                                (ip ++ [n / 256 % 256, n % 256]) := by
                            split
                            · rename_i heq
                              simp only [List.cons.injEq] at heq
                              exact absurd heq.1 hc1
                            · rfl
                          rw [hm] at h
                          exact ih _ _ _ h
                · simp [hc0] at h

theorem parseIPv6_chars (s : List Char) (h : net.parseIPv6 s ≠ []) :
    ∀ x ∈ s, ipChar x = true := by
  unfold net.parseIPv6 at h
  split at h
  · rename_i s1
    intro x hx
    rcases List.mem_cons.mp hx with hx | hx
    · rw [hx]; exact ipChar_colon
    · rcases List.mem_cons.mp hx with hx | hx
      · rw [hx]; exact ipChar_colon
      · by_cases h0 : s1.length = 0
        · rw [List.length_eq_zero.mp h0] at hx
          simp at hx
        · simp only [h0, if_false] at h
          exact parseIPv6Loop_chars 8 s1 _ _ h x hx
  · exact parseIPv6Loop_chars 8 s _ _ h

theorem parseIPScan_chars (whole s : List Char) (h : net.parseIPScan whole s ≠ []) :
    ∀ x ∈ whole, ipChar x = true := by
  induction s with
  | nil => exact absurd rfl h
  | cons c rest ih =>
    unfold net.parseIPScan at h
    by_cases h1 : c = '.'
    · simp only [h1, if_true] at h
      exact parseIPv4_chars whole h
    · by_cases h2 : c = ':'
      · simp only [h2, if_true] at h
        have h3 : ¬ (':' = '.') := by decide
        simp only [h3, if_false] at h
        exact parseIPv6_chars whole h
      · simp only [h1, h2, if_false] at h
        exact ih h

theorem ParseIP_chars (a : String) (h : net.ParseIP a ≠ []) :
    ∀ x ∈ a.toList, ipChar x = true :=
  parseIPScan_chars a.toList a.toList h

theorem escapeChar_ipChar (c : Char) (h : ipChar c = true) : json.escapeChar c = [c] := by
  simp only [ipChar, Bool.or_eq_true, beq_iff_eq] at h
  rcases h with (h | h) | h
  · have hr : (48 ≤ c.toNat ∧ c.toNat ≤ 57) ∨ (97 ≤ c.toNat ∧ c.toNat ≤ 102) ∨
        (65 ≤ c.toNat ∧ c.toNat ≤ 70) := by
      unfold net.hexVal at h
      by_cases h1 : 48 ≤ c.toNat ∧ c.toNat ≤ 57
      · exact Or.inl h1
      · by_cases h2 : 97 ≤ c.toNat ∧ c.toNat ≤ 102
        · exact Or.inr (Or.inl h2)
        · by_cases h3 : 65 ≤ c.toNat ∧ c.toNat ≤ 70
          · exact Or.inr (Or.inr h3)
          · simp [h1, h2, h3] at h
    have hlt : c.toNat < 0x80 := by omega
    have hsafe : json.htmlSafeSet c.toNat = true := by
      simp only [json.htmlSafeSet, Bool.and_eq_true, decide_eq_true_eq, Bool.not_eq_true',
        Bool.or_eq_false_iff, beq_eq_false_iff_ne, ne_eq]
      omega
    simp [json.escapeChar, hlt, hsafe]
  · subst h; decide
  · subst h; decide

theorem escape_ipChars (s : List Char) (h : ∀ x ∈ s, ipChar x = true) : json.escape s = s := by
  induction s with
  | nil => rfl
  | cons c s ih =>
    unfold json.escape
    rw [escapeChar_ipChar c (h c (List.mem_cons_self _ _)),
      ih (fun x hx => h x (List.mem_cons_of_mem _ hx))]
    rfl

theorem ParseIP_of_private (a : String) (h : isPrivateIP a = true) : net.ParseIP a ≠ [] := by
  intro hnil
  rw [isPrivateIP_of_parse_nil a hnil] at h
  cases h

theorem encodeString_private (a : String) (h : isPrivateIP a = true) :
    json.encodeString a = "\"" ++ a ++ "\"" := by
  unfold json.encodeString
  rw [escape_ipChars a.toList (ParseIP_chars a (ParseIP_of_private a h))]
  rfl

theorem encodeVars_ansibleHost (a : String) (h : isPrivateIP a = true) :
    encodeVars (ansibleHost a) = "\x7b\"ansible_host\":\"" ++ a ++ "\"\x7d" := by
  have hk : json.encodeString "ansible_host" = "\"ansible_host\"" := by decide
  have hs : json.sortedEntries (ansibleHost a) = [("ansible_host", a)] := rfl
  unfold encodeVars json.encodeMap json.encodeObject
  rw [hs]
  simp only [List.map_cons, List.map_nil, hk, encodeString_private a h]
  show "\x7b" ++ ("\"ansible_host\"" ++ ":" ++ ("\"" ++ a ++ "\"")) ++ "\x7d" = _
  apply String.ext
  simp [String.data_append]

theorem Host_fresh (hosts : List mackerel.Host) (n : String) :
    (NewInventory.Host (some hosts) n).2 =
      match (firstNamed hosts n).bind (fun r => lastPrivate r.Interfaces) with
      | some a => "\x7b\"ansible_host\":\"" ++ a ++ "\"\x7d"
      | none => "\x7b\x7d" := by
  rw [Host_of_lookup, lookup_Meta_addHosts hosts NewInventory n rfl rfl]
  cases firstNamed hosts n with
  | none => rfl
  | some r =>
    simp only [Option.some_bind]
    cases hl : lastPrivate r.Interfaces with
    | none => rfl
    | some a => exact encodeVars_ansibleHost a (lastPrivate_private _ _ hl)

/-- C9: host-query hit.  On a fresh engine, when the Host Source succeeds and
the first returned record named `n` has an interface passing `isPrivateIP`,
`Host n` returns the JSON text of `Meta[n]`, which is exactly
`{"ansible_host":"<a>"}` for the address `a` of the last such interface; and for
every answer of the source and every name the output is `{}` or an object with
the single key `ansible_host`. -/
theorem Host_hit (hosts : List mackerel.Host) (n : String) (r : mackerel.Host)
    (hfirst : firstNamed hosts n = some r)
    (hpriv : ∃ x ∈ r.Interfaces, isPrivateIP x.IPAddress = true) :
    (∃ a, lastPrivate r.Interfaces = some a ∧
      (NewInventory.addHosts hosts).Meta.lookup n = some (ansibleHost a) ∧
      (NewInventory.Host (some hosts) n).2 = encodeVars (ansibleHost a) ∧
      (NewInventory.Host (some hosts) n).2 = "\x7b\"ansible_host\":\"" ++ a ++ "\"\x7d") ∧
    ∀ (found : mackerel.FindHostsResult) (m : String),
      (NewInventory.Host found m).2 = "\x7b\x7d" ∨
        ∃ a, (NewInventory.Host found m).2 = "\x7b\"ansible_host\":\"" ++ a ++ "\"\x7d" := by
  constructor
  · cases hl : lastPrivate r.Interfaces with
    | none =>
      obtain ⟨x, hx, hp⟩ := hpriv
      rw [(lastPrivate_eq_none r.Interfaces).mp hl x hx] at hp
      cases hp
    | some a =>
      have hdoc := Host_fresh hosts n
      rw [hfirst, Option.some_bind, hl] at hdoc
      refine ⟨a, rfl, ?_, ?_, hdoc⟩
      · rw [lookup_Meta_addHosts hosts NewInventory n rfl rfl, hfirst, Option.some_bind, hl]
        rfl
      · rw [hdoc, encodeVars_ansibleHost a (lastPrivate_private _ _ hl)]
  · intro found m
    cases found with
    | none => exact Or.inl rfl
    | some hs =>
      rw [Host_fresh hs m]
      cases (firstNamed hs m).bind (fun r => lastPrivate r.Interfaces) with
      | none => exact Or.inl rfl
      | some a => exact Or.inr ⟨a, rfl⟩

/-- C9 at a source that returns `hostPublic`, `hostWeb` and a second record
under the name of `hostWeb`: the query for "h1" gives the last private address
of `hostWeb`. -/
theorem Host_hit_witness :
    firstNamed [hostPublic, hostWeb, hostWebAgain] "h1" = some hostWeb ∧
      (NewInventory.Host (some [hostPublic, hostWeb, hostWebAgain]) "h1").2 =
        "\x7b\"ansible_host\":\"10.0.0.9\"\x7d" := by
  refine ⟨rfl, ?_⟩
  obtain ⟨a, ha, _, _, hdoc⟩ :=
    (Host_hit [hostPublic, hostWeb, hostWebAgain] "h1" hostWeb rfl
      ⟨⟨"10.0.0.9"⟩, by decide, by decide⟩).1
  have h9 : lastPrivate hostWeb.Interfaces = some "10.0.0.9" := by decide
  rw [h9] at ha
  cases ha
  exact hdoc

/-! ## The loop of `parseIPv6` ends within eight iterations -/

theorem parseIPv6Loop_fuel (fuel : Nat) :
    ∀ (more : Nat) (s : List Char) (e : Option Nat) (ip : List Nat),
      net.IPv6len ≤ ip.length + 2 * fuel →
      net.parseIPv6Loop (fuel + more) s e ip = net.parseIPv6Loop fuel s e ip := by
  induction fuel with
  | zero =>
    intro more s e ip h
    cases more with
    | zero => rfl
    | succ m =>
      have hlen : ¬ ip.length < net.IPv6len := by omega
      rw [Nat.zero_add]
      unfold net.parseIPv6Loop
      simp only [hlen, not_false_eq_true, if_true]
  | succ fuel ih =>
    intro more s e ip h
    have hsucc : fuel + 1 + more = (fuel + more) + 1 := by omega
    rw [hsucc]
    unfold net.parseIPv6Loop
    rcases hx : net.xtoi s with ⟨n, c, ok⟩
    have key : ∀ (s1 : List Char) (e1 : Option Nat),
        net.parseIPv6Loop (fuel + more) s1 e1 (ip ++ [n / 256 % 256, n % 256]) =
          net.parseIPv6Loop fuel s1 e1 (ip ++ [n / 256 % 256, n % 256]) := by
      intro s1 e1
      apply ih
      simp only [List.length_append, List.length_cons, List.length_nil]
      omega
    simp only [key]

/-- Eight iterations are all the loop of `parseIPv6` can make from the empty
address: more fuel gives the same result. -/
theorem parseIPv6Loop_eight (more : Nat) (s : List Char) (e : Option Nat) :
    net.parseIPv6Loop (8 + more) s e [] = net.parseIPv6Loop 8 s e [] :=
  parseIPv6Loop_fuel 8 more s e [] (by decide)

/-! ## Addresses without a 4-byte form -/

theorem To4_length (ip : net.IP) (h : net.To4 ip = []) : ip.length ≠ 4 := by
  intro h4
  have hne : ip ≠ [] := by
    intro h0; rw [h0] at h4; cases h4
  unfold net.To4 at h
  rw [if_pos (by simpa [net.IPv4len] using h4)] at h
  exact hne h

theorem Contains_four (n0 n1 n2 n3 m0 m1 m2 m3 : Nat) (ip : net.IP)
    (h : net.To4 ip = []) :
    net.IPNet.Contains ⟨[n0, n1, n2, n3], [m0, m1, m2, m3]⟩ ip = false := by
  have hlen := To4_length ip h
  have hnm : net.networkNumberAndMask ⟨[n0, n1, n2, n3], [m0, m1, m2, m3]⟩ =
      ([n0, n1, n2, n3], [m0, m1, m2, m3]) := rfl
  unfold net.IPNet.Contains
  rw [hnm]
  simp only [h, ne_eq, not_true_eq_false, if_false, List.length_cons, List.length_nil]
  rw [if_pos hlen]

theorem isPrivateIP_of_To4_nil (s : String) (h : net.To4 (net.ParseIP s) = []) :
    isPrivateIP s = false := by
  unfold isPrivateIP
  simp only [privateIPNets, List.any_cons, List.any_nil, Bool.or_false]
  rw [Contains_four _ _ _ _ _ _ _ _ _ h, Contains_four _ _ _ _ _ _ _ _ _ h,
    Contains_four _ _ _ _ _ _ _ _ _ h]
  rfl

/-- C11, as amended: a string whose parsed address has no 4-byte form (an IPv6
address that is not IPv4-mapped, or no address at all) never passes
`isPrivateIP`. -/
theorem isPrivateIP_not_mapped (s : String) (h : net.To4 (net.ParseIP s) = []) :
    isPrivateIP s = false :=
  isPrivateIP_of_To4_nil s h

/-- C11 as amended, at the unique-local address fd00::1 and at the loopback
address ::1. -/
theorem isPrivateIP_not_mapped_witness :
    net.ParseIP "fd00::1" = [0xfd, 0, 0, 0, 0, 0, 0, 0, 0, 0, 0, 0, 0, 0, 0, 1] ∧
      net.To4 (net.ParseIP "fd00::1") = [] ∧ isPrivateIP "fd00::1" = false ∧
      isPrivateIP "::1" = false :=
  ⟨by decide, by decide, isPrivateIP_not_mapped "fd00::1" (by decide),
    isPrivateIP_not_mapped "::1" (by decide)⟩

/-- C11 fails on IPv4-mapped text: "::ffff:10.0.0.1" and its hexadecimal form
"::ffff:a00:1" hold a ':', parse as the 16-byte address of 10.0.0.1, and pass
`isPrivateIP`. -/
theorem isPrivateIP_mapped_counterexample :
    net.ParseIP "::ffff:10.0.0.1" = net.IPv4 10 0 0 1 ∧
      isPrivateIP "::ffff:10.0.0.1" = true ∧
      net.ParseIP "::ffff:a00:1" = net.IPv4 10 0 0 1 ∧
      isPrivateIP "::ffff:a00:1" = true := by
  decide

/-! ## The entry of every group after `addHost` -/

theorem lookup_appendHost (G : GoMap (List String)) (k n g : String) :
    (appendHost G k n).lookup g =
      if g = k then some (groupOf G g ++ [n]) else G.lookup g := by
  unfold appendHost
  by_cases h : g = k
  · subst h
    rw [if_pos rfl]
    exact AList.lookup_insert _
  · rw [if_neg h]
    exact AList.lookup_insert_ne h

theorem appendTimes_zero (o : Option (List String)) (n : String) : appendTimes o 0 n = o := by
  simp [appendTimes]

theorem appendTimes_add (o : Option (List String)) (a b : Nat) (n : String) :
    appendTimes (appendTimes o a n) b n = appendTimes o (a + b) n := by
  by_cases ha : a = 0
  · subst ha; simp [appendTimes]
  · by_cases hb : b = 0
    · subst hb; simp [appendTimes]
    · have hab : a + b ≠ 0 := by omega
      unfold appendTimes
      rw [if_neg ha, if_neg hb, if_neg hab, Option.getD_some, List.replicate_add,
        List.append_assoc]

theorem lookup_groupBy (G : GoMap (List String)) (k n g : String) :
    (groupBy G k n).lookup g =
      appendTimes (G.lookup g) (if g = "" then 0 else if k = g then 1 else 0) n := by
  unfold groupBy
  by_cases hkg : k = g
  · subst hkg
    by_cases hk : k = ""
    · rw [if_neg (not_not.mpr hk), if_pos hk, appendTimes_zero]
    · rw [if_pos hk, if_neg hk, if_pos rfl, lookup_appendHost, if_pos rfl]
      simp [appendTimes, groupOf]
  · have hcount : (if g = "" then 0 else if k = g then 1 else 0) = 0 := by
      rw [if_neg hkg]; exact ite_self 0
    rw [hcount, appendTimes_zero]
    by_cases hk : k = ""
    · rw [if_neg (not_not.mpr hk)]
    · rw [if_pos hk, lookup_appendHost, if_neg (fun h => hkg h.symm)]

theorem lookup_groupByRoles (roles : List String) (G : GoMap (List String)) (n g : String) :
    (groupByRoles G roles n).lookup g =
      appendTimes (G.lookup g) (if g = "" then 0 else roles.count g) n := by
  induction roles generalizing G with
  | nil => simp [groupByRoles, appendTimes]
  | cons role rest ih =>
    have hstep : groupByRoles G (role :: rest) n = groupByRoles (groupBy G role n) rest n := rfl
    rw [hstep, ih, lookup_groupBy, appendTimes_add]
    congr 1
    by_cases hg : g = ""
    · simp [hg]
    · by_cases h : role = g
      · simp [hg, h, List.count_cons]; omega
      · simp [hg, h, List.count_cons]

theorem lookup_groupByServices (l : List (Sigma (fun _ : String => List String)))
    (G : GoMap (List String)) (n g : String) :
    (groupByServices G l n).lookup g =
      appendTimes (G.lookup g)
        (if g = "" then 0
          else (l.map (fun e => e.1)).count g + (l.map (fun e => e.2.count g)).sum) n := by
  induction l generalizing G with
  | nil => simp [groupByServices, appendTimes]
  | cons e rest ih =>
    have hstep : groupByServices G (e :: rest) n =
        groupByServices (groupByRoles (groupBy G e.1 n) e.2 n) rest n := rfl
    rw [hstep, ih, lookup_groupByRoles, lookup_groupBy, appendTimes_add, appendTimes_add]
    congr 1
    by_cases hg : g = ""
    · simp [hg]
    · by_cases h : e.1 = g
      · simp [hg, h, List.count_cons]; omega
      · simp [hg, h, List.count_cons]; omega

theorem lookup_Groups_addHost (i : Inventory) (r : mackerel.Host) (g : String)
    (hseen : i.seen r.Name = false) :
    (i.addHost r).Groups.lookup g = appendTimes (i.Groups.lookup g) (appends r g) r.Name := by
  rw [addHost_of_not_seen i r hseen]
  show (groupBy (groupBy (groupByServices i.Groups r.Roles.entries r.Name)
    r.Type_ r.Name) r.Status r.Name).lookup g = _
  rw [lookup_groupBy, lookup_groupBy, lookup_groupByServices, appendTimes_add, appendTimes_add,
    count_keys]
  congr 1
  unfold appends memberships
  by_cases hg : g = ""
  · simp [hg]
  · simp only [hg, if_false]
    omega

theorem groupOf_appendTimes (o : Option (List String)) (c : Nat) (n : String) :
    (appendTimes o c n).getD [] = o.getD [] ++ List.replicate c n := by
  by_cases hc : c = 0
  · subst hc; simp [appendTimes]
  · simp [appendTimes, hc]

/-! ## Frame, well-formedness and order of the groups -/

theorem memberships_eq_zero (r : mackerel.Host) (g : String)
    (hkey : g ∉ r.Roles.keys) (hrole : ∀ e ∈ r.Roles.entries, g ∉ e.2)
    (htype : g ≠ r.Type_) (hstatus : g ≠ r.Status) : memberships r g = 0 := by
  have hsum : (r.Roles.entries.map (fun e => e.2.count g)).sum = 0 := by
    apply List.sum_eq_zero
    intro x hx
    obtain ⟨e, he, rfl⟩ := List.mem_map.mp hx
    exact List.count_eq_zero.mpr (hrole e he)
  have h1 : ¬ r.Type_ = g := fun h => htype h.symm
  have h2 : ¬ r.Status = g := fun h => hstatus h.symm
  unfold memberships
  rw [if_neg hkey, hsum, if_neg h1, if_neg h2]

theorem lookup_addedHosts_addHost_ne (i : Inventory) (r : mackerel.Host) (n : String)
    (hn : n ≠ r.Name) : (i.addHost r).addedHosts.lookup n = i.addedHosts.lookup n := by
  by_cases h : i.seen r.Name = true
  · rw [addHost_of_seen i r h]
  · rw [addHost_of_not_seen i r (by simpa using h)]
    exact AList.lookup_insert_ne hn

theorem lookup_Groups_addHost_frame (i : Inventory) (r : mackerel.Host) (g : String)
    (hkey : g ∉ r.Roles.keys) (hrole : ∀ e ∈ r.Roles.entries, g ∉ e.2)
    (htype : g ≠ r.Type_) (hstatus : g ≠ r.Status) :
    (i.addHost r).Groups.lookup g = i.Groups.lookup g := by
  by_cases h : i.seen r.Name = true
  · rw [addHost_of_seen i r h]
  · rw [lookup_Groups_addHost i r g (by simpa using h)]
    have h0 : appends r g = 0 := by
      unfold appends
      rw [memberships_eq_zero r g hkey hrole htype hstatus]
      exact ite_self 0
    rw [h0, appendTimes_zero]

/-- C16: the frame of `addHost`.  For every name other than that of the record,
`Meta` and the seen set are as before; and every group name that is no service,
role, platform type or status of the record has its entry in `Groups` as
before. -/
theorem addHost_frame (i : Inventory) (r : mackerel.Host) :
    (∀ n, n ≠ r.Name → (i.addHost r).Meta.lookup n = i.Meta.lookup n) ∧
      (∀ n, n ≠ r.Name →
        (i.addHost r).addedHosts.lookup n = i.addedHosts.lookup n ∧
          (i.addHost r).seen n = i.seen n) ∧
      ∀ g, g ∉ r.Roles.keys → (∀ e ∈ r.Roles.entries, g ∉ e.2) → g ≠ r.Type_ →
        g ≠ r.Status → (i.addHost r).Groups.lookup g = i.Groups.lookup g :=
  ⟨lookup_Meta_addHost_ne i r,
    fun n hn => ⟨lookup_addedHosts_addHost_ne i r n hn, seen_addHost_ne i r n hn⟩,
    lookup_Groups_addHost_frame i r⟩

/-- C16 at `hostWebToo`, classified after `hostWeb`: the variables of "h1" and
the group "frontend" stay, the group "web" grows. -/
theorem addHost_frame_witness :
    ((NewInventory.addHost hostWeb).addHost hostWebToo).Meta.lookup "h1" =
        (NewInventory.addHost hostWeb).Meta.lookup "h1" ∧
      ((NewInventory.addHost hostWeb).addHost hostWebToo).seen "h1" =
        (NewInventory.addHost hostWeb).seen "h1" ∧
      ((NewInventory.addHost hostWeb).addHost hostWebToo).Groups.lookup "frontend" =
        (NewInventory.addHost hostWeb).Groups.lookup "frontend" ∧
      ((NewInventory.addHost hostWeb).addHost hostWebToo).Groups.lookup "web" =
        some ["h1", "h1", "h6"] :=
  ⟨(addHost_frame (NewInventory.addHost hostWeb) hostWebToo).1 "h1" (by decide),
    ((addHost_frame (NewInventory.addHost hostWeb) hostWebToo).2.1 "h1" (by decide)).2,
    (addHost_frame (NewInventory.addHost hostWeb) hostWebToo).2.2 "frontend"
      (by decide) (by decide) (by decide) (by decide),
    by decide⟩

theorem groups_wf_step (i : Inventory) (r : mackerel.Host)
    (h0 : i.Groups.lookup "" = none)
    (hwf : ∀ g v, i.Groups.lookup g = some v → v ≠ [] ∧ ∀ x ∈ v, i.seen x = true) :
    (i.addHost r).Groups.lookup "" = none ∧
      ∀ g v, (i.addHost r).Groups.lookup g = some v →
        v ≠ [] ∧ ∀ x ∈ v, (i.addHost r).seen x = true := by
  by_cases hs : i.seen r.Name = true
  · rw [addHost_of_seen i r hs]
    exact ⟨h0, hwf⟩
  · have hs' : i.seen r.Name = false := by simpa using hs
    constructor
    · rw [lookup_Groups_addHost i r "" hs']
      have : appends r "" = 0 := by simp [appends]
      rw [this, appendTimes_zero]
      exact h0
    · intro g v hv
      rw [lookup_Groups_addHost i r g hs'] at hv
      by_cases hc : appends r g = 0
      · rw [hc, appendTimes_zero] at hv
        obtain ⟨h1, h2⟩ := hwf g v hv
        exact ⟨h1, fun x hx => seen_addHost_mono i r x (h2 x hx)⟩
      · unfold appendTimes at hv
        rw [if_neg hc] at hv
        simp only [Option.some.injEq] at hv
        subst hv
        constructor
        · intro hnil
          have hlen := congrArg List.length hnil
          simp only [List.length_append, List.length_replicate, List.length_nil] at hlen
          omega
        · intro x hx
          rcases List.mem_append.mp hx with hx | hx
          · cases ho : i.Groups.lookup g with
            | none => rw [ho] at hx; simp at hx
            | some w =>
              rw [ho] at hx
              exact seen_addHost_mono i r x ((hwf g w ho).2 x hx)
          · rw [(List.mem_replicate.mp hx).2]
            exact seen_addHost_self i r

/-- C17: group well-formedness.  In every reachable state the empty string is
no key of `Groups`, no group is an empty list, and every host name in a group
is in the seen set. -/
theorem Reachable_groups_wf (i : Inventory) (hr : Reachable i) :
    "" ∉ i.Groups ∧
      ∀ g v, i.Groups.lookup g = some v → v ≠ [] ∧ ∀ x ∈ v, i.seen x = true := by
  rw [← AList.lookup_eq_none]
  induction hr with
  | init => exact ⟨rfl, fun g v h => by cases h⟩
  | step j r _ ih => exact groups_wf_step j r ih.1 ih.2

/-- C17 at the state after `hostWeb` and `hostBlank`. -/
theorem Reachable_groups_wf_witness :
    Reachable ((NewInventory.addHost hostWeb).addHost hostBlank) ∧
      "" ∉ ((NewInventory.addHost hostWeb).addHost hostBlank).Groups ∧
      ((NewInventory.addHost hostWeb).addHost hostBlank).Groups.lookup "web" =
        some ["h1", "h1"] :=
  ⟨Reachable.step _ _ (Reachable.step _ _ Reachable.init),
    (Reachable_groups_wf _ (Reachable.step _ _ (Reachable.step _ _ Reachable.init))).1,
    by decide⟩

theorem groupOf_addHost_appends (i : Inventory) (r : mackerel.Host) (g : String)
    (hseen : i.seen r.Name = false) :
    groupOf (i.addHost r).Groups g =
      groupOf i.Groups g ++ List.replicate (appends r g) r.Name := by
  unfold groupOf
  rw [lookup_Groups_addHost i r g hseen, groupOf_appendTimes]

theorem groupOf_addHosts (hosts : List mackerel.Host) (i : Inventory) (g : String)
    (hnodup : (namesOf hosts).Nodup) (hunseen : ∀ h ∈ hosts, i.seen h.Name = false) :
    groupOf (i.addHosts hosts).Groups g =
      groupOf i.Groups g ++
        (hosts.map (fun h => List.replicate (appends h g) h.Name)).flatten := by
  induction hosts generalizing i with
  | nil => simp [Inventory.addHosts]
  | cons r rest ih =>
    have hstep : i.addHosts (r :: rest) = (i.addHost r).addHosts rest := rfl
    have hnd : r.Name ∉ namesOf rest ∧ (namesOf rest).Nodup := List.nodup_cons.mp hnodup
    have hr : i.seen r.Name = false := hunseen r (List.mem_cons_self _ _)
    rw [hstep, ih (i.addHost r) hnd.2, groupOf_addHost_appends i r g hr]
    · simp [List.append_assoc]
    · intro h hh
      have hne : h.Name ≠ r.Name := by
        intro heq
        apply hnd.1
        rw [← heq]
        exact List.mem_map.mpr ⟨h, hh, rfl⟩
      rw [seen_addHost_ne i r h.Name hne]
      exact hunseen h (List.mem_cons_of_mem _ hh)

theorem pairwise_indexOf (names : List String) (hnodup : names.Nodup) :
    names.Pairwise (fun x y => names.indexOf x ≤ names.indexOf y) := by
  rw [List.pairwise_iff_getElem]
  intro a b ha hb hab
  rw [List.indexOf_getElem hnodup a ha, List.indexOf_getElem hnodup b hb]
  exact Nat.le_of_lt hab

theorem pairwise_blocks (hosts : List mackerel.Host) (k : mackerel.Host → Nat)
    (hnodup : (namesOf hosts).Nodup) :
    (hosts.map (fun h => List.replicate (k h) h.Name)).flatten.Pairwise
      (fun x y => (namesOf hosts).indexOf x ≤ (namesOf hosts).indexOf y) := by
  rw [List.pairwise_flatten]
  constructor
  · intro l hl
    obtain ⟨h, _, rfl⟩ := List.mem_map.mp hl
    rw [List.pairwise_replicate]
    exact Or.inr (Nat.le_refl _)
  · rw [List.pairwise_map]
    have hp := pairwise_indexOf (namesOf hosts) hnodup
    unfold namesOf at hp
    rw [List.pairwise_map] at hp
    refine hp.imp ?_
    intro a b hab x hx y hy
    rw [(List.mem_replicate.mp hx).2, (List.mem_replicate.mp hy).2]
    exact hab

/-- C12: groups are append-only and ordered by classification.  After `addHost`
the list of every group is its previous list followed by copies of the name of
the record; hence, after classifying records of pairwise distinct names from
the empty engine, every group is the concatenation, in classification order, of
the copies of each name, so that no later name stands before an earlier one. -/
theorem addHost_append_only (i : Inventory) (r : mackerel.Host) :
    (∀ g, ∃ k, groupOf (i.addHost r).Groups g =
        groupOf i.Groups g ++ List.replicate k r.Name) ∧
      ∀ (hosts : List mackerel.Host), (namesOf hosts).Nodup → ∀ g,
        groupOf (NewInventory.addHosts hosts).Groups g =
            (hosts.map (fun h => List.replicate (appends h g) h.Name)).flatten ∧
          (groupOf (NewInventory.addHosts hosts).Groups g).Pairwise
            (fun x y => (namesOf hosts).indexOf x ≤ (namesOf hosts).indexOf y) := by
  constructor
  · intro g
    by_cases h : i.seen r.Name = true
    · exact ⟨0, by rw [addHost_of_seen i r h]; simp⟩
    · exact ⟨appends r g, groupOf_addHost_appends i r g (by simpa using h)⟩
  · intro hosts hnodup g
    have hflat : groupOf (NewInventory.addHosts hosts).Groups g =
        (hosts.map (fun h => List.replicate (appends h g) h.Name)).flatten := by
      rw [groupOf_addHosts hosts NewInventory g hnodup (fun _ _ => rfl)]
      rfl
    refine ⟨hflat, ?_⟩
    rw [hflat]
    exact pairwise_blocks hosts _ hnodup

/-- C12 at the records `hostWeb`, `hostBlank`, `hostWebToo` in this order: the
group "web" is `["h1", "h1", "h6"]`. -/
theorem addHost_append_only_witness :
    (namesOf [hostWeb, hostBlank, hostWebToo]).Nodup ∧
      groupOf (NewInventory.addHosts [hostWeb, hostBlank, hostWebToo]).Groups "web" =
        ["h1", "h1", "h6"] ∧
      (["h1", "h1", "h6"] : List String).Pairwise
        (fun x y => (namesOf [hostWeb, hostBlank, hostWebToo]).indexOf x ≤
          (namesOf [hostWeb, hostBlank, hostWebToo]).indexOf y) := by
  have hnd : (namesOf [hostWeb, hostBlank, hostWebToo]).Nodup := by decide
  have h := (addHost_append_only NewInventory hostWeb).2 [hostWeb, hostBlank, hostWebToo]
    hnd "web"
  have hweb : groupOf (NewInventory.addHosts [hostWeb, hostBlank, hostWebToo]).Groups "web" =
      ["h1", "h1", "h6"] := by decide
  refine ⟨hnd, hweb, ?_⟩
  rw [← hweb]
  exact h.2

/-! ## The host variables and the state after a query -/

theorem Reachable_addHosts (hosts : List mackerel.Host) (i : Inventory) (hr : Reachable i) :
    Reachable (i.addHosts hosts) := by
  induction hosts generalizing i with
  | nil => exact hr
  | cons r rest ih => exact ih (i.addHost r) (Reachable.step i r hr)

theorem Reachable_iff (i : Inventory) :
    Reachable i ↔ ∃ hosts, i = NewInventory.addHosts hosts := by
  constructor
  · intro hr
    induction hr with
    | init => exact ⟨[], rfl⟩
    | step j r _ ih =>
      obtain ⟨hosts, rfl⟩ := ih
      refine ⟨hosts ++ [r], ?_⟩
      simp [Inventory.addHosts, List.foldl_append]
  · rintro ⟨hosts, rfl⟩
    exact Reachable_addHosts hosts NewInventory Reachable.init

theorem seen_addHosts_mem (hosts : List mackerel.Host) (i : Inventory) (r : mackerel.Host)
    (hr : r ∈ hosts) : (i.addHosts hosts).seen r.Name = true := by
  induction hosts generalizing i with
  | nil => cases hr
  | cons h rest ih =>
    have hstep : i.addHosts (h :: rest) = (i.addHost h).addHosts rest := rfl
    rw [hstep]
    rcases List.mem_cons.mp hr with heq | hmem
    · subst heq
      exact seen_addHosts_mono rest _ _ (seen_addHost_self i r)
    · exact ih (i.addHost h) hmem

theorem lastPrivate_mem (ifs : List mackerel.Interface) (a : String)
    (h : lastPrivate ifs = some a) :
    ∃ x ∈ ifs, x.IPAddress = a ∧ isPrivateIP x.IPAddress = true := by
  unfold lastPrivate at h
  cases hf : List.find? (fun x => isPrivateIP x.IPAddress) ifs.reverse with
  | none => rw [hf] at h; cases h
  | some x =>
    rw [hf] at h
    simp only [Option.map_some', Option.some.injEq] at h
    have hp := List.find?_some hf
    exact ⟨x, List.mem_reverse.mp (List.mem_of_find?_eq_some hf), h, hp⟩

theorem firstNamed_some (hosts : List mackerel.Host) (n : String) (r : mackerel.Host)
    (h : firstNamed hosts n = some r) : r ∈ hosts ∧ r.Name = n := by
  unfold firstNamed at h
  exact ⟨List.mem_of_find?_eq_some h, by simpa using List.find?_some h⟩

/-- C13: the invariant of the host variables.  In the state reached from
`NewInventory` by classifying any sequence of records, every key `n` of `Meta`
is in the seen set and its value is `{"ansible_host": a}` for the address `a`
of an interface, passing `isPrivateIP`, of the first record classified under
the name `n`. -/
theorem Meta_invariant (hosts : List mackerel.Host) (n : String) (vars : Vars)
    (h : (NewInventory.addHosts hosts).Meta.lookup n = some vars) :
    Reachable (NewInventory.addHosts hosts) ∧
      (NewInventory.addHosts hosts).seen n = true ∧
      ∃ r x, firstNamed hosts n = some r ∧ x ∈ r.Interfaces ∧
        isPrivateIP x.IPAddress = true ∧ vars = ansibleHost x.IPAddress := by
  refine ⟨Reachable_addHosts hosts NewInventory Reachable.init, ?_⟩
  rw [lookup_Meta_addHosts hosts NewInventory n rfl rfl] at h
  cases hf : firstNamed hosts n with
  | none => rw [hf] at h; cases h
  | some r =>
    rw [hf, Option.some_bind] at h
    obtain ⟨hmem, hname⟩ := firstNamed_some hosts n r hf
    cases hl : lastPrivate r.Interfaces with
    | none => rw [hl] at h; cases h
    | some a =>
      rw [hl] at h
      simp only [Option.map_some', Option.some.injEq] at h
      obtain ⟨x, hx, hxa, hpriv⟩ := lastPrivate_mem r.Interfaces a hl
      refine ⟨?_, r, x, rfl, hx, hpriv, ?_⟩
      · rw [← hname]
        exact seen_addHosts_mem hosts NewInventory r hmem
      · rw [hxa, h]

/-- C13 at the records `hostWeb`, `hostWebAgain` (same name) and `hostPublic`:
the variables of "h1" come from the first record. -/
theorem Meta_invariant_witness :
    (NewInventory.addHosts [hostWeb, hostWebAgain, hostPublic]).Meta.lookup "h1" =
        some (ansibleHost "10.0.0.9") ∧
      (NewInventory.addHosts [hostWeb, hostWebAgain, hostPublic]).seen "h1" = true ∧
      (NewInventory.addHosts [hostWeb, hostWebAgain, hostPublic]).Meta.lookup "h5" = none :=
  ⟨rfl,
    (Meta_invariant [hostWeb, hostWebAgain, hostPublic] "h1" (ansibleHost "10.0.0.9") rfl).2.1,
    rfl⟩

theorem List_Host_state (i : Inventory) (n : String) (hosts : List mackerel.Host) :
    (i.Host (some hosts) n).1 = hosts.foldl Inventory.addHost i := by
  have hdef : i.Host (some hosts) n =
      match (i.addHosts hosts).Meta.entries.find? (fun e => e.1 == n) with
      | some e => (i.addHosts hosts, encodeVars e.2)
      | none => (i.addHosts hosts, "\x7b\x7d") := rfl
  rw [hdef]
  cases (i.addHosts hosts).Meta.entries.find? (fun e => e.1 == n) with
  | some e => rfl
  | none => rfl

/-! ## Empty results, and the order of map iteration -/

theorem setAnsibleHost_none (ifs : List mackerel.Interface) (m : GoMap Vars) (n : String)
    (h : ∀ x ∈ ifs, isPrivateIP x.IPAddress = false) : setAnsibleHost m ifs n = m := by
  induction ifs with
  | nil => rfl
  | cons x xs ih =>
    have hstep : setAnsibleHost m (x :: xs) n =
        setAnsibleHost (if isPrivateIP x.IPAddress then
          m.insert n (AList.singleton "ansible_host" x.IPAddress) else m) xs n := rfl
    rw [hstep, h x (List.mem_cons_self _ _)]
    exact ih (fun y hy => h y (List.mem_cons_of_mem _ hy))

theorem addHost_blank (i : Inventory) (r : mackerel.Host)
    (hroles : ∀ e ∈ r.Roles.entries, e.1 = "" ∧ ∀ role ∈ e.2, role = "")
    (htype : r.Type_ = "") (hstatus : r.Status = "")
    (hifs : ∀ x ∈ r.Interfaces, isPrivateIP x.IPAddress = false) :
    (i.addHost r).Groups = i.Groups ∧ (i.addHost r).Meta = i.Meta := by
  by_cases h : i.seen r.Name = true
  · rw [addHost_of_seen i r h]
    exact ⟨rfl, rfl⟩
  · rw [addHost_of_not_seen i r (by simpa using h)]
    constructor
    · show groupBy (groupBy (groupByServices i.Groups r.Roles.entries r.Name)
        r.Type_ r.Name) r.Status r.Name = i.Groups
      rw [htype, hstatus, groupBy_empty, groupBy_empty, groupByServices_empty _ _ _ hroles]
    · exact setAnsibleHost_none _ _ _ hifs

theorem addHosts_blank (hosts : List mackerel.Host) (i : Inventory)
    (h : ∀ r ∈ hosts, (∀ e ∈ r.Roles.entries, e.1 = "" ∧ ∀ role ∈ e.2, role = "") ∧
      r.Type_ = "" ∧ r.Status = "" ∧ ∀ x ∈ r.Interfaces, isPrivateIP x.IPAddress = false) :
    (i.addHosts hosts).Groups = i.Groups ∧ (i.addHosts hosts).Meta = i.Meta := by
  induction hosts generalizing i with
  | nil => exact ⟨rfl, rfl⟩
  | cons r rest ih =>
    have hstep : i.addHosts (r :: rest) = (i.addHost r).addHosts rest := rfl
    obtain ⟨h1, h2, h3, h4⟩ := h r (List.mem_cons_self _ _)
    obtain ⟨hg, hm⟩ := addHost_blank i r h1 h2 h3 h4
    obtain ⟨hg2, hm2⟩ := ih (i.addHost r) (fun x hx => h x (List.mem_cons_of_mem _ hx))
    rw [hstep, hg2, hm2, hg, hm]
    exact ⟨rfl, rfl⟩

theorem MarshalJSON_congr (i j : Inventory) (hg : i.Groups = j.Groups) (hm : i.Meta = j.Meta) :
    i.MarshalJSON = j.MarshalJSON := by
  unfold Inventory.MarshalJSON Inventory.data
  rw [hg, hm]

/-- C18: zero results and failure give the same list document.  On a fresh
engine, when the Host Source succeeds with no record, or only with records that
have no non-empty service, role, platform type or status and no private
interface, `List` returns exactly `{"_meta":{"hostvars":{}}}`, the string it
returns when the source fails. -/
theorem List_blank_is_fallback (hosts : List mackerel.Host)
    (h : ∀ r ∈ hosts, (∀ e ∈ r.Roles.entries, e.1 = "" ∧ ∀ role ∈ e.2, role = "") ∧
      r.Type_ = "" ∧ r.Status = "" ∧ ∀ x ∈ r.Interfaces, isPrivateIP x.IPAddress = false) :
    (NewInventory.List (some hosts)).2 = "\x7b\"_meta\":\x7b\"hostvars\":\x7b\x7d\x7d\x7d" ∧
      (NewInventory.List (some hosts)).2 = (NewInventory.List none).2 := by
  obtain ⟨hg, hm⟩ := addHosts_blank hosts NewInventory h
  have hdoc : (NewInventory.List (some hosts)).2 = (NewInventory.addHosts hosts).MarshalJSON :=
    rfl
  have hlit : NewInventory.MarshalJSON =
      "\x7b\"_meta\":\x7b\"hostvars\":\x7b\x7d\x7d\x7d" := by decide
  rw [hdoc, MarshalJSON_congr _ NewInventory hg hm, hlit]
  exact ⟨rfl, rfl⟩

/-- C18 at the empty answer and at an answer made of a record with empty
classification fields and a public address. -/
theorem List_blank_is_fallback_witness :
    (NewInventory.List (some [])).2 = (NewInventory.List none).2 ∧
      (NewInventory.List (some [hostNothing])).2 =
        "\x7b\"_meta\":\x7b\"hostvars\":\x7b\x7d\x7d\x7d" :=
  ⟨(List_blank_is_fallback [] (fun r hr => by cases hr)).2,
    (List_blank_is_fallback [hostNothing] (by decide)).1⟩

theorem appends_perm (r : mackerel.Host) (roles : GoMap (List String))
    (hperm : roles.entries.Perm r.Roles.entries) (g : String) :
    appends { r with Roles := roles } g = appends r g := by
  have hkeys : roles.keys.Perm r.Roles.keys := hperm.map Sigma.fst
  have hmem : g ∈ roles.keys ↔ g ∈ r.Roles.keys := hkeys.mem_iff
  have hsum : (roles.entries.map (fun e => e.2.count g)).sum =
      (r.Roles.entries.map (fun e => e.2.count g)).sum :=
    (hperm.map (fun e => e.2.count g)).sum_eq
  unfold appends memberships
  simp only [hmem, hsum]

theorem any_perm (nets : List (String × net.IPNet)) (hperm : nets.Perm privateIPNets)
    (s : String) :
    nets.any (fun e => e.2.Contains (net.ParseIP s)) = isPrivateIP s := by
  unfold isPrivateIP
  rw [Bool.eq_iff_iff, List.any_eq_true, List.any_eq_true]
  constructor
  · rintro ⟨x, hx, hp⟩
    exact ⟨x, hperm.mem_iff.mp hx, hp⟩
  · rintro ⟨x, hx, hp⟩
    exact ⟨x, hperm.mem_iff.mpr hx, hp⟩

theorem addHost_perm (i : Inventory) (r : mackerel.Host) (roles : GoMap (List String))
    (hperm : roles.entries.Perm r.Roles.entries) :
    (∀ g, (i.addHost { r with Roles := roles }).Groups.lookup g =
        (i.addHost r).Groups.lookup g) ∧
      (i.addHost { r with Roles := roles }).Meta = (i.addHost r).Meta ∧
      (i.addHost { r with Roles := roles }).addedHosts = (i.addHost r).addedHosts := by
  by_cases h : i.seen r.Name = true
  · rw [addHost_of_seen i r h, addHost_of_seen i { r with Roles := roles } h]
    exact ⟨fun _ => rfl, rfl, rfl⟩
  · have h' : i.seen r.Name = false := by simpa using h
    refine ⟨?_, ?_, ?_⟩
    · intro g
      rw [lookup_Groups_addHost i r g h', lookup_Groups_addHost i { r with Roles := roles } g h',
        appends_perm r roles hperm g]
    · rw [addHost_of_not_seen i r h', addHost_of_not_seen i { r with Roles := roles } h']
    · rw [addHost_of_not_seen i r h', addHost_of_not_seen i { r with Roles := roles } h']

theorem Char_toNat_inj (a b : Char) (h : a.toNat = b.toNat) : a = b := by
  apply Char.ext
  apply UInt32.ext
  exact h

theorem less_asymm (a b : List Char) (h : json.less a b = true) : json.less b a = false := by
  induction a generalizing b with
  | nil =>
    cases b with
    | nil => rfl
    | cons y t => rfl
  | cons x s ih =>
    cases b with
    | nil => simp [json.less] at h
    | cons y t =>
      unfold json.less at h ⊢
      by_cases h1 : x.toNat < y.toNat
      · have h2 : ¬ y.toNat < x.toNat := by omega
        simp [h1, h2]
      · by_cases h2 : y.toNat < x.toNat
        · simp [h1, h2] at h
        · simp only [h1, h2, if_false] at h ⊢
          exact ih t h

theorem less_trichotomy (a b : List Char) (h1 : json.less a b = false)
    (h2 : json.less b a = false) : a = b := by
  induction a generalizing b with
  | nil =>
    cases b with
    | nil => rfl
    | cons y t => simp [json.less] at h1
  | cons x s ih =>
    cases b with
    | nil => simp [json.less] at h2
    | cons y t =>
      unfold json.less at h1 h2
      by_cases hxy : x.toNat < y.toNat
      · simp [hxy] at h1
      · by_cases hyx : y.toNat < x.toNat
        · simp [hyx] at h2
        · simp only [hxy, hyx, if_false] at h1 h2
          have hc : x = y := Char_toNat_inj x y (by omega)
          rw [hc, ih t h1 h2]

theorem less_trans_le (a b c : List Char) (h1 : json.less b a = false)
    (h2 : json.less c b = false) : json.less c a = false := by
  induction a generalizing b c with
  | nil => cases c <;> rfl
  | cons x s ih =>
    cases c with
    | nil =>
      cases b with
      | nil => simp [json.less] at h1
      | cons y t => simp [json.less] at h2
    | cons z u =>
      cases b with
      | nil => simp [json.less] at h1
      | cons y t =>
        unfold json.less at h1 h2 ⊢
        by_cases hyx : y.toNat < x.toNat
        · simp [hyx] at h1
        · by_cases hzy : z.toNat < y.toNat
          · simp [hzy] at h2
          · have hzx : ¬ z.toNat < x.toNat := by omega
            by_cases hxz : x.toNat < z.toNat
            · simp [hzx, hxz]
            · have hxy : ¬ x.toNat < y.toNat := by omega
              have hyz : ¬ y.toNat < z.toNat := by omega
              simp only [hyx, hxy, hzy, hyz, hzx, hxz, if_false] at h1 h2 ⊢
              exact ih t u h1 h2

theorem sortedEntries_strict {V : Type} (l : List (String × V))
    (hnd : (l.map Prod.fst).Nodup) :
    (l.insertionSort (fun a b => json.less b.1.toList a.1.toList = false)).Sorted
      (fun a b => json.less a.1.toList b.1.toList = true) := by
  haveI : IsTotal (String × V) (fun a b => json.less b.1.toList a.1.toList = false) :=
    ⟨fun a b => by
      by_cases hab : json.less b.1.toList a.1.toList = true
      · exact Or.inr (less_asymm _ _ hab)
      · exact Or.inl (by simpa using hab)⟩
  haveI : IsTrans (String × V) (fun a b => json.less b.1.toList a.1.toList = false) :=
    ⟨fun a b c hab hbc => less_trans_le a.1.toList b.1.toList c.1.toList hab hbc⟩
  have hs := List.sorted_insertionSort
    (fun a b : String × V => json.less b.1.toList a.1.toList = false) l
  have hp := List.perm_insertionSort
    (fun a b : String × V => json.less b.1.toList a.1.toList = false) l
  have hnd2 := ((hp.map Prod.fst).nodup_iff).mpr hnd
  have hne := List.pairwise_map.mp hnd2
  refine (List.Pairwise.and hs hne).imp ?_
  rintro a b ⟨h1, h2⟩
  by_cases hab : json.less a.1.toList b.1.toList = true
  · exact hab
  · exfalso
    apply h2
    have := less_trichotomy a.1.toList b.1.toList (by simpa using hab) h1
    exact String.ext this

theorem sortedEntries_perm {V : Type} (m1 m2 : GoMap V)
    (h : m1.entries.Perm m2.entries) : json.sortedEntries m1 = json.sortedEntries m2 := by
  haveI : IsAntisymm (String × V) (fun a b => json.less a.1.toList b.1.toList = true) :=
    ⟨fun a b hab hba => by
      rw [less_asymm _ _ hab] at hba
      cases hba⟩
  have hkeys : ∀ m : GoMap V, ((m.entries.map (fun e => (e.1, e.2))).map Prod.fst).Nodup := by
    intro m
    rw [List.map_map]
    exact m.keys_nodup
  unfold json.sortedEntries
  refine List.eq_of_perm_of_sorted ?_ (sortedEntries_strict _ (hkeys m1))
    (sortedEntries_strict _ (hkeys m2))
  exact ((List.perm_insertionSort _ _).trans (h.map _)).trans (List.perm_insertionSort _ _).symm

theorem data_perm (i j : Inventory) (hg : ∀ g, i.Groups.lookup g = j.Groups.lookup g)
    (hm : i.Meta = j.Meta) : i.data.entries.Perm j.data.entries := by
  apply List.lookup_ext i.data.nodupKeys j.data.nodupKeys
  intro x y
  have h1 : List.dlookup x i.data.entries = i.data.lookup x := rfl
  have h2 : List.dlookup x j.data.entries = j.data.lookup x := rfl
  rw [h1, h2, lookup_data, lookup_data, hg x, hm]

theorem MarshalJSON_ext (i j : Inventory) (hg : ∀ g, i.Groups.lookup g = j.Groups.lookup g)
    (hm : i.Meta = j.Meta) : i.MarshalJSON = j.MarshalJSON := by
  unfold Inventory.MarshalJSON json.encodeMap
  rw [sortedEntries_perm i.data j.data (data_perm i j hg hm)]

theorem entries_perm_of_lookup (G H : GoMap (List String))
    (h : ∀ g, G.lookup g = H.lookup g) : G.entries.Perm H.entries := by
  apply List.lookup_ext G.nodupKeys H.nodupKeys
  intro x y
  have h1 : List.dlookup x G.entries = G.lookup x := rfl
  have h2 : List.dlookup x H.entries = H.lookup x := rfl
  rw [h1, h2, h x]

/-- C15: independence from the order of map iteration.  If the entries of the
`Roles` map of a record are visited in another order (any permutation of
them), `addHost` gives the same map of groups (every group has the same list,
the entries of the two maps are the same up to order), the same `Meta` and the same
seen set, and the list document is the same text; and `isPrivateIP` gives the
same value in whatever order the three networks are tried. -/
theorem addHost_iteration_order (i : Inventory) (r : mackerel.Host)
    (roles : GoMap (List String)) (hperm : roles.entries.Perm r.Roles.entries) :
    ((∀ g, (i.addHost { r with Roles := roles }).Groups.lookup g =
          (i.addHost r).Groups.lookup g) ∧
        (i.addHost { r with Roles := roles }).Groups.entries.Perm (i.addHost r).Groups.entries ∧
        AList.toFinmap (i.addHost { r with Roles := roles }).Groups =
          AList.toFinmap (i.addHost r).Groups ∧
        (i.addHost { r with Roles := roles }).Meta = (i.addHost r).Meta ∧
        (i.addHost { r with Roles := roles }).addedHosts = (i.addHost r).addedHosts ∧
        (i.addHost { r with Roles := roles }).MarshalJSON = (i.addHost r).MarshalJSON) ∧
      ∀ (nets : List (String × net.IPNet)) (s : String), nets.Perm privateIPNets →
        nets.any (fun e => e.2.Contains (net.ParseIP s)) = isPrivateIP s := by
  obtain ⟨hg, hm, ha⟩ := addHost_perm i r roles hperm
  have hp := entries_perm_of_lookup _ _ hg
  exact ⟨⟨hg, hp, AList.toFinmap_eq.mpr hp, hm, ha, MarshalJSON_ext _ _ hg hm⟩,
    fun nets s hn => any_perm nets hn s⟩

/-- C15 at a record with the services "web" and "db" in either order, and at
the three networks tried in reverse order. -/
theorem addHost_iteration_order_witness :
    hostTwoServicesSwapped.Roles.entries.Perm hostTwoServices.Roles.entries ∧
      (NewInventory.addHost hostTwoServicesSwapped).Groups.entries ≠
        (NewInventory.addHost hostTwoServices).Groups.entries ∧
      (NewInventory.addHost hostTwoServicesSwapped).MarshalJSON =
        (NewInventory.addHost hostTwoServices).MarshalJSON ∧
      privateIPNets.reverse.any (fun e => e.2.Contains (net.ParseIP "192.168.1.5")) =
        isPrivateIP "192.168.1.5" := by
  have hperm : hostTwoServicesSwapped.Roles.entries.Perm hostTwoServices.Roles.entries := by
    decide
  have h := addHost_iteration_order NewInventory hostTwoServices hostTwoServicesSwapped.Roles
    hperm
  exact ⟨hperm, by decide, h.1.2.2.2.2.2, h.2 _ _ (List.reverse_perm _)⟩

/-! ## The methods as assignments: what the queries write -/

theorem run_append (m : Memory) (xs ys : List Assign) :
    m.run (xs ++ ys) = (m.run xs).run ys := by
  unfold Memory.run
  rw [List.foldl_append]

theorem run_groupByAssigns (m : Memory) (k n : String) :
    m.run (groupByAssigns k n) =
      { m with receiver := { m.receiver with Groups := groupBy m.receiver.Groups k n } } := by
  unfold groupByAssigns groupBy
  by_cases hk : k = ""
  · rw [if_neg (not_not.mpr hk), if_neg (not_not.mpr hk)]
    rfl
  · rw [if_pos hk, if_pos hk]
    rfl

theorem run_roles (roles : List String) (m : Memory) (n : String) :
    m.run (roles.flatMap (fun role => groupByAssigns role n)) =
      { m with receiver :=
          { m.receiver with Groups := groupByRoles m.receiver.Groups roles n } } := by
  induction roles generalizing m with
  | nil => rfl
  | cons role rest ih =>
    rw [List.flatMap_cons, run_append, run_groupByAssigns, ih]
    rfl

theorem run_services (l : List (Sigma (fun _ : String => List String))) (m : Memory)
    (n : String) :
    m.run (groupByServicesAssigns l n) =
      { m with receiver :=
          { m.receiver with Groups := groupByServices m.receiver.Groups l n } } := by
  induction l generalizing m with
  | nil => rfl
  | cons e rest ih =>
    have hcons : groupByServicesAssigns (e :: rest) n =
        (groupByAssigns e.1 n ++ e.2.flatMap (fun role => groupByAssigns role n)) ++
          groupByServicesAssigns rest n := by
      unfold groupByServicesAssigns
      rw [List.flatMap_cons]
    rw [hcons, run_append, run_append, run_groupByAssigns, run_roles, ih]
    rfl

theorem run_interfaces (ifs : List mackerel.Interface) (m : Memory) (n : String) :
    m.run (setAnsibleHostAssigns ifs n) =
      { m with receiver :=
          { m.receiver with Meta := setAnsibleHost m.receiver.Meta ifs n } } := by
  induction ifs generalizing m with
  | nil => rfl
  | cons x xs ih =>
    have hcons : setAnsibleHostAssigns (x :: xs) n =
        (if isPrivateIP x.IPAddress then [Assign.vars n x.IPAddress] else []) ++
          setAnsibleHostAssigns xs n := by
      unfold setAnsibleHostAssigns
      rw [List.flatMap_cons]
    have hstep : ∀ M : GoMap Vars, setAnsibleHost M (x :: xs) n =
        setAnsibleHost (if isPrivateIP x.IPAddress then
          M.insert n (AList.singleton "ansible_host" x.IPAddress) else M) xs n :=
      fun _ => rfl
    rw [hcons, run_append, ih, hstep]
    cases isPrivateIP x.IPAddress with
    | true => rfl
    | false => rfl

theorem Memory_addHost (m : Memory) (host : mackerel.Host) :
    m.addHost host = { receiver := m.receiver.addHost host, data := m.data } := by
  unfold Memory.addHost
  by_cases h : m.receiver.seen host.Name = true
  · rw [if_pos h, addHost_of_seen _ _ h]
  · rw [if_neg h, addHost_of_not_seen _ _ (by simpa using h)]
    unfold addHostAssigns
    rw [run_append, run_append, run_append, run_append, run_services, run_groupByAssigns,
      run_groupByAssigns, run_interfaces]
    rfl

theorem Memory_addHosts (hosts : List mackerel.Host) (m : Memory) :
    hosts.foldl Memory.addHost m =
      { receiver := hosts.foldl Inventory.addHost m.receiver, data := m.data } := by
  induction hosts generalizing m with
  | nil => rfl
  | cons r rest ih =>
    rw [List.foldl_cons, ih, Memory_addHost]
    rfl

theorem exec_toData (a : Assign) (m : Memory) (h : a.toData = true) :
    (a.exec m).receiver = m.receiver := by
  cases a with
  | group k name => cases h
  | vars name address => cases h
  | added name => cases h
  | dataMeta => rfl
  | dataGroup k v => rfl

theorem run_toData (xs : List Assign) (m : Memory) (h : ∀ a ∈ xs, a.toData = true) :
    (m.run xs).receiver = m.receiver := by
  induction xs generalizing m with
  | nil => rfl
  | cons a rest ih =>
    have hstep : m.run (a :: rest) = (a.exec m).run rest := rfl
    rw [hstep, ih (a.exec m) (fun b hb => h b (List.mem_cons_of_mem _ hb)),
      exec_toData a m (h a (List.mem_cons_self _ _))]

theorem MarshalJSONAssigns_toData (i : Inventory) :
    ∀ a ∈ MarshalJSONAssigns i, a.toData = true := by
  intro a ha
  unfold MarshalJSONAssigns at ha
  rcases List.mem_cons.mp ha with h | h
  · rw [h]; rfl
  · obtain ⟨e, _, rfl⟩ := List.mem_map.mp h
    rfl

theorem run_dataGroups (l : List (Sigma (fun _ : String => List String))) (m : Memory) :
    (m.run (l.map (fun e => Assign.dataGroup e.1 e.2))).data =
      l.foldl (fun d e => d.insert e.1 (DataValue.names e.2)) m.data := by
  induction l generalizing m with
  | nil => rfl
  | cons e rest ih =>
    have hstep : m.run ((e :: rest).map (fun e => Assign.dataGroup e.1 e.2)) =
        ((Assign.dataGroup e.1 e.2).exec m).run
          (rest.map (fun e => Assign.dataGroup e.1 e.2)) := rfl
    rw [hstep, ih]
    rfl

theorem Memory_MarshalJSON (m : Memory) :
    m.MarshalJSON.1.receiver = m.receiver ∧ m.MarshalJSON.1.data = m.receiver.data ∧
      m.MarshalJSON.2 = m.receiver.MarshalJSON := by
  have hrec : m.MarshalJSON.1.receiver = m.receiver :=
    run_toData _ _ (MarshalJSONAssigns_toData m.receiver)
  have hdata : m.MarshalJSON.1.data = m.receiver.data := by
    show (Memory.run { m with data := ∅ } (MarshalJSONAssigns m.receiver)).data = _
    unfold MarshalJSONAssigns
    have hstep : ∀ (mem : Memory) (xs : List Assign),
        mem.run (Assign.dataMeta :: xs) = (Assign.dataMeta.exec mem).run xs := fun _ _ => rfl
    rw [hstep, run_dataGroups]
    rfl
  refine ⟨hrec, hdata, ?_⟩
  show json.encodeMap DataValue.encode m.MarshalJSON.1.data = _
  rw [hdata]
  rfl

theorem Memory_Host (m : Memory) (hosts : List mackerel.Host) (n : String) :
    (m.Host (some hosts) n).1 = hosts.foldl Memory.addHost m ∧
      (m.Host (some hosts) n).2 = (m.receiver.Host (some hosts) n).2 := by
  have hdef : m.Host (some hosts) n =
      match (hosts.foldl Memory.addHost m).receiver.Meta.entries.find? (fun e => e.1 == n) with
      | some e => (hosts.foldl Memory.addHost m, encodeVars e.2)
      | none => (hosts.foldl Memory.addHost m, "\x7b\x7d") := rfl
  have hdef2 : m.receiver.Host (some hosts) n =
      match (m.receiver.addHosts hosts).Meta.entries.find? (fun e => e.1 == n) with
      | some e => (m.receiver.addHosts hosts, encodeVars e.2)
      | none => (m.receiver.addHosts hosts, "\x7b\x7d") := rfl
  have hrec : (hosts.foldl Memory.addHost m).receiver = m.receiver.addHosts hosts := by
    rw [Memory_addHosts]; rfl
  rw [hdef, hdef2, hrec]
  cases (m.receiver.addHosts hosts).Meta.entries.find? (fun e => e.1 == n) with
  | some e => exact ⟨rfl, rfl⟩
  | none => exact ⟨rfl, rfl⟩

/-- C14: the queries change the state only by classification.  On the memory the
methods work on (the receiver and the local `data`): when the Host Source
fails, `List` and `Host` leave the receiver as it is; when it succeeds, the
receiver after either is the old one with `addHost` applied to each returned
record in the order returned; every assignment `MarshalJSON` executes writes
to `data`, so it leaves groups, `Meta` and the seen set as they were, and the
lookup of `Host` executes no assignment.  States and documents agree with
`Inventory.List` and `Inventory.Host`. -/
theorem queries_write_by_addHost (m : Memory) (n : String) :
    ((m.List none).1.receiver = m.receiver ∧ (m.Host none n).1.receiver = m.receiver) ∧
      (∀ hosts : List mackerel.Host,
        (m.List (some hosts)).1.receiver = hosts.foldl Inventory.addHost m.receiver ∧
          (m.Host (some hosts) n).1.receiver = hosts.foldl Inventory.addHost m.receiver ∧
          (m.Host (some hosts) n).1 = hosts.foldl Memory.addHost m) ∧
      ((∀ a ∈ MarshalJSONAssigns m.receiver, a.toData = true) ∧
        m.MarshalJSON.1.receiver = m.receiver ∧
        m.MarshalJSON.2 = m.receiver.MarshalJSON) ∧
      ∀ found : mackerel.FindHostsResult,
        (m.List found).1.receiver = (m.receiver.List found).1 ∧
          (m.List found).2 = (m.receiver.List found).2 ∧
          (m.Host found n).1.receiver = (m.receiver.Host found n).1 ∧
          (m.Host found n).2 = (m.receiver.Host found n).2 := by
  have hlist : ∀ hosts : List mackerel.Host,
      (m.List (some hosts)).1.receiver = hosts.foldl Inventory.addHost m.receiver ∧
        (m.List (some hosts)).2 = (hosts.foldl Inventory.addHost m.receiver).MarshalJSON := by
    intro hosts
    have hdef : m.List (some hosts) = (hosts.foldl Memory.addHost m).MarshalJSON := rfl
    obtain ⟨h1, _, h3⟩ := Memory_MarshalJSON (hosts.foldl Memory.addHost m)
    rw [hdef, h1, h3, Memory_addHosts]
    exact ⟨rfl, rfl⟩
  have hhost : ∀ hosts : List mackerel.Host,
      (m.Host (some hosts) n).1.receiver = hosts.foldl Inventory.addHost m.receiver := by
    intro hosts
    rw [(Memory_Host m hosts n).1, Memory_addHosts]
  refine ⟨⟨rfl, rfl⟩, fun hosts => ⟨(hlist hosts).1, hhost hosts, (Memory_Host m hosts n).1⟩,
    ⟨MarshalJSONAssigns_toData m.receiver, (Memory_MarshalJSON m).1,
      (Memory_MarshalJSON m).2.2⟩, ?_⟩
  intro found
  cases found with
  | none => exact ⟨rfl, rfl, rfl, rfl⟩
  | some hosts =>
    refine ⟨(hlist hosts).1, (hlist hosts).2, ?_, (Memory_Host m hosts n).2⟩
    rw [hhost hosts, List_Host_state m.receiver n hosts]

/-- C14 at the memory after `hostWeb`: `List` with the answer `[hostWebToo]`
leaves the receiver with "h6" appended to "web", `MarshalJSON` leaves the
receiver as it is, while an assignment to `i.Groups` does change it. -/
theorem queries_write_by_addHost_witness :
    (memoryAfterWeb.List (some [hostWebToo])).1.receiver.Groups.lookup "web" =
        some ["h1", "h1", "h6"] ∧
      (memoryAfterWeb.List none).1.receiver = memoryAfterWeb.receiver ∧
      memoryAfterWeb.MarshalJSON.1.receiver = memoryAfterWeb.receiver ∧
      memoryAfterWeb.MarshalJSON.1.data.lookup "web" = some (DataValue.names ["h1", "h1"]) ∧
      ((Assign.group "web" "h9").exec memoryAfterWeb).receiver.Groups.lookup "web" =
        some ["h1", "h1", "h9"] ∧
      memoryAfterWeb.receiver.Groups.lookup "web" = some ["h1", "h1"] := by
  have h := queries_write_by_addHost memoryAfterWeb "h1"
  refine ⟨?_, h.1.1, h.2.2.1.2.1, rfl, by decide, by decide⟩
  rw [(h.2.1 [hostWebToo]).1]
  decide
